import Mathlib

/-!
# Verification of the rekordcrate CLI and codecs

Shallow embedding of the `rekordcrate` sources (`src/main.rs`, `src/setting.rs`,
`src/util.rs`) together with a model of the `rekordcrate::pdb` paged-database
codec, which is specified but whose source file is not part of this tree.

Bytes are modelled as `Nat` values; a well-formed byte list satisfies
`∀ b ∈ bs, b < 256` (Rust's `u8` guarantees this by typing).
-/

/-! ## Byte-cursor primitives

`readLE n` models nom's `le_u32` / `le_u16` combinators (`n = 4` resp. `n = 2`):
it consumes exactly `n` bytes and combines them little-endian, failing when the
input is shorter than `n` bytes.  `readBytes n` models `nom::bytes::complete::take(n)`.
-/

/-- Little-endian interpretation of a byte list: the first byte is least
significant. -/
def leVal (bs : List Nat) : Nat := bs.foldr (fun b acc => b + 256 * acc) 0

/-- Little-endian encoding of `v` on `n` bytes (truncating above `256 ^ n`). -/
def leBytes : Nat → Nat → List Nat
  | 0, _ => []
  | n + 1, v => v % 256 :: leBytes n (v / 256)

/-- Model of nom's little-endian integer readers (`le_u16`, `le_u32`):
consume `n` bytes, combine them little-endian. -/
def readLE : Nat → List Nat → Option (Nat × List Nat)
  | 0, bs => some (0, bs)
  | _ + 1, [] => none
  | n + 1, b :: bs => (readLE n bs).map (fun vr => (b + 256 * vr.1, vr.2))

/-- Model of `nom::bytes::complete::take(n)`: consume exactly `n` bytes,
fail if fewer remain (the bounds check). -/
def readBytes : Nat → List Nat → Option (List Nat × List Nat)
  | 0, bs => some ([], bs)
  | _ + 1, [] => none
  | n + 1, b :: bs => (readBytes n bs).map (fun tr => (b :: tr.1, tr.2))

/-! ## UTF-8 validation and decoding

Model of `std::str::from_utf8` (RFC 3629 validation: continuation-byte ranges,
overlong-form and surrogate rejection, four-byte upper bound) returning the
decoded character sequence, and of `str::trim_end_matches('\0')`. -/

/-- One step of UTF-8 decoding (RFC 3629, as validated by
`std::str::from_utf8`): classify the leading byte, check continuation bytes,
overlong forms and surrogates, and return the decoded character together with
the remaining bytes. -/
def utf8Step : List Nat → Option (Char × List Nat)
  | [] => none
  | b0 :: bs =>
    if b0 < 0x80 then some (Char.ofNat b0, bs)
    else if b0 < 0xC2 then none
    else if b0 < 0xE0 then
      match bs with
      | b1 :: bs1 =>
        if 0x80 ≤ b1 ∧ b1 < 0xC0 then
          some (Char.ofNat ((b0 - 0xC0) * 0x40 + (b1 - 0x80)), bs1)
        else none
      | [] => none
    else if b0 < 0xF0 then
      match bs with
      | b1 :: b2 :: bs2 =>
        if (0x80 ≤ b1 ∧ b1 < 0xC0) ∧ (0x80 ≤ b2 ∧ b2 < 0xC0)
            ∧ (b0 = 0xE0 → 0xA0 ≤ b1) ∧ (b0 = 0xED → b1 < 0xA0) then
          some (Char.ofNat ((b0 - 0xE0) * 0x1000 + (b1 - 0x80) * 0x40 + (b2 - 0x80)), bs2)
        else none
      | _ => none
    else if b0 < 0xF5 then
      match bs with
      | b1 :: b2 :: b3 :: bs3 =>
        if (0x80 ≤ b1 ∧ b1 < 0xC0) ∧ (0x80 ≤ b2 ∧ b2 < 0xC0) ∧ (0x80 ≤ b3 ∧ b3 < 0xC0)
            ∧ (b0 = 0xF0 → 0x90 ≤ b1) ∧ (b0 = 0xF4 → b1 < 0x90) then
          some (Char.ofNat ((b0 - 0xF0) * 0x40000 + (b1 - 0x80) * 0x1000
            + (b2 - 0x80) * 0x40 + (b3 - 0x80)), bs3)
        else none
      | _ => none
    else none

/-- Iterate `utf8Step`; the fuel is an upper bound on the number of characters,
and `utf8Decode` instantiates it with the byte count, which always suffices
since every step consumes at least one byte. -/
def utf8DecodeAux : Nat → List Nat → Option (List Char)
  | _, [] => some []
  | 0, _ :: _ => none
  | fuel + 1, b0 :: bs =>
    match utf8Step (b0 :: bs) with
    | none => none
    | some cr => (utf8DecodeAux fuel cr.2).map (fun cs => cr.1 :: cs)

/-- Model of `std::str::from_utf8` followed by `chars()`: `none` on invalid
UTF-8, otherwise the decoded characters. -/
def utf8Decode (l : List Nat) : Option (List Char) := utf8DecodeAux l.length l

/-- Model of `str::trim_end_matches('\0')`: remove all trailing NUL characters. -/
def trimEndNul (cs : List Char) : List Char :=
  (cs.reverse.dropWhile (fun c => c = Char.ofNat 0)).reverse

/-! ## `src/setting.rs`: the `Setting` structure and `Setting::parse`

Faithful embedding of `Setting::parse`.  The three `std::str::from_utf8(...)
.unwrap()` calls are modelled by the `panicked` outcome: `unwrap` on an `Err`
aborts the process instead of returning a parse error.  The
`usize::try_from(len_stringdata)` conversions cannot fail for a `u32` on the
64-bit targets modelled here (`usize ⊇ u32`), so no failure case arises from
them. -/

/-- The parsed settings file, `Setting` in `src/setting.rs`.  Rust `String`
fields are modelled as `List Char`. -/
structure Setting where
  len_stringdata : Nat
  company : List Char
  software : List Char
  version : List Char
  len_unknown1 : Nat
  unknown1 : List Nat
  checksum : Nat
  unknown2 : Nat
deriving DecidableEq, Repr

/-- Outcome of running `Setting::parse`: an `IResult` success carrying the
remaining input, a nom error, or a Rust panic (from `unwrap`). -/
inductive SResult where
  | ok (remaining : List Nat) (s : Setting)
  | err
  | panicked
deriving DecidableEq, Repr

/-- Embedding of `Setting::parse` (`src/setting.rs` lines 52–97). -/
def Setting.parse (orig_input : List Nat) : SResult :=
  match readLE 4 orig_input with
  | none => .err
  | some (len_stringdata, input1) =>
    let stringdatasection_size := len_stringdata / 3
    match readBytes stringdatasection_size input1 with
    | none => .err
    | some (companyRaw, input2) =>
      match utf8Decode companyRaw with
      | none => .panicked
      | some companyChars =>
        match readBytes stringdatasection_size input2 with
        | none => .err
        | some (softwareRaw, input3) =>
          match utf8Decode softwareRaw with
          | none => .panicked
          | some softwareChars =>
            match readBytes stringdatasection_size input3 with
            | none => .err
            | some (versionRaw, input4) =>
              match utf8Decode versionRaw with
              | none => .panicked
              | some versionChars =>
                match readLE 4 input4 with
                | none => .err
                | some (len_unknown1, input5) =>
                  match readBytes len_unknown1 input5 with
                  | none => .err
                  | some (unknown1, input6) =>
                    match readLE 2 input6 with
                    | none => .err
                    | some (checksum, input7) =>
                      match readLE 2 input7 with
                      | none => .err
                      | some (unknown2, input8) =>
                        if input8.isEmpty then
                          .ok input8
                            { len_stringdata := len_stringdata
                              company := trimEndNul companyChars
                              software := trimEndNul softwareChars
                              version := trimEndNul versionChars
                              len_unknown1 := len_unknown1
                              unknown1 := unknown1
                              checksum := checksum
                              unknown2 := unknown2 }
                        else .err

/-- Discriminator for a successful parse outcome. -/
def SResult.isOk : SResult → Bool
  | .ok _ _ => true
  | _ => false

/-! ## Model of the `rekordcrate::pdb` paged-database codec

Modelled from the spec: the `pdb` module (header/table directory, page and
row-group codec, row variant codec, `DeviceString` codec, `read_pages`,
whole-file writer) is part of this repository but its source file is not in
this tree; only callers in `src/main.rs` are.  The definitions below follow
§§2–4 of the specification: a header carrying `page_size` and the table
directory; fixed-size pages at offsets `page_index * page_size`; per-page
row-groups of at most 16 slots governed by a presence bitmask; rows decoded by
the owning table's page-type (the playlist-tree-node variant is implemented,
per §4.3; other page-types have no known layout here and decode as
`UnsupportedVariant`, i.e. failure, when rows are present); a tagged
variable-length string codec with short, long-ASCII and long-wide forms whose
encode reproduces the decoded form exactly; and a whole-file writer that
replays the header and every table's page chain in read order.  Field
offsets inside the page and header layouts are choices of this model; the
spec fixes only the field inventories, the little-endian byte order and the
chain/bitmask mechanics. -/

/-- The enumerated page-type categories of §3, with the catch-all `unknown`
value for forward compatibility (§6). -/
inductive PageType where
  | tracks
  | artists
  | albums
  | genres
  | labels
  | keys
  | colors
  | playlistTree
  | playlistEntries
  | artwork
  | history
  | unknown (value : Nat)
deriving DecidableEq, Repr

/-- Modelled from the spec: numeric page-type values, with `unknown` carrying
its raw value. -/
def PageType.ofNat (v : Nat) : PageType :=
  if v = 0 then .tracks
  else if v = 1 then .artists
  else if v = 2 then .albums
  else if v = 3 then .genres
  else if v = 4 then .labels
  else if v = 5 then .keys
  else if v = 6 then .colors
  else if v = 7 then .playlistTree
  else if v = 8 then .playlistEntries
  else if v = 9 then .artwork
  else if v = 10 then .history
  else .unknown v

/-- Inverse of `PageType.ofNat`. -/
def PageType.toNat : PageType → Nat
  | .tracks => 0
  | .artists => 1
  | .albums => 2
  | .genres => 3
  | .labels => 4
  | .keys => 5
  | .colors => 6
  | .playlistTree => 7
  | .playlistEntries => 8
  | .artwork => 9
  | .history => 10
  | .unknown v => v

/-- Modelled from the spec (§4.4): the tagged variable-length string value.
The constructor records which on-disk form the value came from, so that
encoding reproduces the original bytes exactly. -/
inductive DeviceString where
  | short (bytes : List Nat)
  | longAscii (bytes : List Nat)
  | longWide (units : List Nat)
deriving DecidableEq, Repr

/-- Group a byte list into little-endian 16-bit units (for the long wide
string form). -/
def wideUnits : List Nat → List Nat
  | b0 :: b1 :: rest => (b0 + 256 * b1) :: wideUnits rest
  | _ => []

/-- Modelled from the spec (§4.4): decode one `DeviceString`.  The tag byte
selects the short form (length embedded in the tag, tags `0x00`–`0x3F`), the
long ASCII form (tag `0x40`, explicit u16 length), or the long wide form (tag
`0x90`, explicit u16 length, two bytes per character).  Any other tag, or a
length exceeding the remaining buffer, is a `FormatError` (`none`). -/
def dsDecode (bs : List Nat) : Option (DeviceString × List Nat) :=
  match bs with
  | [] => none
  | t :: rest =>
    if t = 0x40 then
      match readLE 2 rest with
      | none => none
      | some lr =>
        match readBytes lr.1 lr.2 with
        | none => none
        | some sr => some (.longAscii sr.1, sr.2)
    else if t = 0x90 then
      match readLE 2 rest with
      | none => none
      | some lr =>
        match readBytes (2 * lr.1) lr.2 with
        | none => none
        | some sr => some (.longWide (wideUnits sr.1), sr.2)
    else if t < 0x40 then
      match readBytes t rest with
      | none => none
      | some sr => some (.short sr.1, sr.2)
    else none

/-- Modelled from the spec (§4.4): encode a `DeviceString`, reproducing the
original on-disk form. -/
def dsEncode : DeviceString → List Nat
  | .short bytes => bytes.length :: bytes
  | .longAscii bytes => 0x40 :: (leBytes 2 bytes.length ++ bytes)
  | .longWide units => 0x90 :: (leBytes 2 units.length ++ (units.map (leBytes 2)).flatten)

/-- Modelled from the spec (§4.3): the representative playlist-tree row
variant `{id, parent_id, sort_index, is_folder (derived from a sentinel
field), name}`.  The sentinel is kept raw for round-trip fidelity. -/
structure PlaylistTreeNode where
  parent_id : Nat
  sort_order : Nat
  id : Nat
  raw_is_folder : Nat
  name : DeviceString
deriving DecidableEq, Repr

/-- `is_folder()` is derived from the sentinel field, not stored as a
boolean. -/
def PlaylistTreeNode.isFolder (n : PlaylistTreeNode) : Bool := n.raw_is_folder != 0

/-- Modelled from the spec (§3, §4.3): the closed row variant set.  Only the
playlist-tree variant has a known layout in this model. -/
inductive Row where
  | playlistTreeNode (node : PlaylistTreeNode)
deriving DecidableEq, Repr

def rowNode : Row → PlaylistTreeNode
  | .playlistTreeNode n => n

/-- Modelled from the spec (§4.3): decode one row for the owning table's
page-type; a page-type with no known layout is `UnsupportedVariant`
(failure). -/
def rowDecode (pt : PageType) (bs : List Nat) : Option (Row × List Nat) :=
  match pt with
  | .playlistTree =>
    match readLE 4 bs with
    | none => none
    | some pr =>
      match readLE 4 pr.2 with
      | none => none
      | some sr =>
        match readLE 4 sr.2 with
        | none => none
        | some ir =>
          match readLE 4 ir.2 with
          | none => none
          | some fr =>
            match dsDecode fr.2 with
            | none => none
            | some nr =>
              some (.playlistTreeNode
                { parent_id := pr.1, sort_order := sr.1, id := ir.1,
                  raw_is_folder := fr.1, name := nr.1 }, nr.2)
  | _ => none

/-- Modelled from the spec: encode one row (inverse layout of `rowDecode`). -/
def rowEncode : Row → List Nat
  | .playlistTreeNode n =>
    leBytes 4 n.parent_id ++ leBytes 4 n.sort_order ++ leBytes 4 n.id ++
      leBytes 4 n.raw_is_folder ++ dsEncode n.name

/-- The slot indices (ascending) whose presence bit is set in a 16-bit
bitmask. -/
def setBits16 (mask : Nat) : List Nat := (List.range 16).filter (fun i => mask.testBit i)

/-- Number of present slots in a 16-bit presence bitmask. -/
def popcount16 (mask : Nat) : Nat := (setBits16 mask).length

/-- Modelled from the spec (§3, §4.2): a row-group is a fixed-capacity
(16-slot) run of rows plus the presence bitmask; absent slots contribute no
row bytes, so `rows` holds exactly the present rows in ascending slot
order. -/
structure RowGroup where
  row_presence_flags : Nat
  rows : List Row
deriving DecidableEq, Repr

/-- Walk the given slots in order, yielding `(slot, row)` for each set
presence bit and consuming the packed rows; absent slots yield nothing. -/
def presentRowsOver (mask : Nat) : List Nat → List Row → List (Nat × Row)
  | [], _ => []
  | s :: ss, rows =>
    if mask.testBit s then
      match rows with
      | [] => []
      | r :: rs => (s, r) :: presentRowsOver mask ss rs
    else presentRowsOver mask ss rows

/-- Modelled from the spec (§4.2): `present_rows()` — the lazy sequence of
present rows in ascending slot order, silently skipping absent slots. -/
def RowGroup.presentRows (g : RowGroup) : List (Nat × Row) :=
  presentRowsOver g.row_presence_flags (List.range 16) g.rows

/-- Decode `n` rows back to back. -/
def readRows (pt : PageType) : Nat → List Nat → Option (List Row × List Nat)
  | 0, bs => some ([], bs)
  | n + 1, bs =>
    match rowDecode pt bs with
    | none => none
    | some rr =>
      match readRows pt n rr.2 with
      | none => none
      | some rest => some (rr.1 :: rest.1, rest.2)

/-- Modelled from the spec (§4.2): decode row-groups until `needed` rows have
been recovered.  Each group is its 16-bit presence bitmask followed by the
present rows; a group must contribute at least one row (and at most the rows
still needed), which bounds the iteration.  The first argument is fuel
instantiated with `needed` by `readGroups`; since every group consumes at
least one needed row the fuel never runs out. -/
def readGroupsAux (pt : PageType) : Nat → Nat → List Nat → Option (List RowGroup × List Nat)
  | _, 0, bs => some ([], bs)
  | 0, _ + 1, _ => none
  | fuel + 1, needed + 1, bs =>
    match readLE 2 bs with
    | none => none
    | some mr =>
      let k := popcount16 mr.1
      if 0 < k ∧ k ≤ needed + 1 then
        match readRows pt k mr.2 with
        | none => none
        | some rr =>
          match readGroupsAux pt fuel (needed + 1 - k) rr.2 with
          | none => none
          | some gr => some (⟨mr.1, rr.1⟩ :: gr.1, gr.2)
      else none

/-- Decode the row-groups of a page holding `row_count` present rows. -/
def readGroups (pt : PageType) (row_count : Nat) (bs : List Nat) :
    Option (List RowGroup × List Nat) :=
  if row_count = 0 then
    match readLE 2 bs with
    | none => none
    | some mr => if popcount16 mr.1 = 0 then some ([⟨mr.1, []⟩], mr.2) else none
  else readGroupsAux pt row_count row_count bs

/-- Modelled from the spec (§3): one fixed-size page.  The unknown region
between the header fields and the row area is carried opaquely in `free_area`
for round-trip fidelity. -/
structure Page where
  page_index : Nat
  page_type : PageType
  row_count : Nat
  free_size : Nat
  used_size : Nat
  next_page : Nat
  free_area : List Nat
  row_groups : List RowGroup
deriving DecidableEq, Repr

/-- Modelled from the spec (§4.2): decode one page from its `page_size`-byte
block: the fixed header fields, the free area (`free_size` opaque bytes), then
the row-group area, which `used_size` must describe exactly; a page with
`row_count = 0` still contains one empty row-group. -/
def pageDecode (pageSize : Nat) (bs : List Nat) : Option Page :=
  if bs.length ≠ pageSize then none
  else
    match readLE 4 bs with
    | none => none
    | some ixr =>
      match readLE 4 ixr.2 with
      | none => none
      | some ptr =>
        match readLE 2 ptr.2 with
        | none => none
        | some rcr =>
          match readLE 2 rcr.2 with
          | none => none
          | some fsr =>
            match readLE 2 fsr.2 with
            | none => none
            | some usr =>
              match readLE 4 usr.2 with
              | none => none
              | some npr =>
                match readBytes fsr.1 npr.2 with
                | none => none
                | some far =>
                  if usr.1 ≠ far.2.length then none
                  else
                    match readGroups (PageType.ofNat ptr.1) rcr.1 far.2 with
                    | none => none
                    | some gsr =>
                      if gsr.2 = [] then
                        some { page_index := ixr.1, page_type := PageType.ofNat ptr.1,
                               row_count := rcr.1, free_size := fsr.1, used_size := usr.1,
                               next_page := npr.1, free_area := far.1,
                               row_groups := gsr.1 }
                      else none

/-- Encode one row-group: bitmask, then the present rows' bytes. -/
def groupEncode (g : RowGroup) : List Nat :=
  leBytes 2 g.row_presence_flags ++ (g.rows.map rowEncode).flatten

/-- Modelled from the spec (§4.5): encode one page, mirroring `pageDecode`. -/
def pageEncode (p : Page) : List Nat :=
  leBytes 4 p.page_index ++ leBytes 4 p.page_type.toNat ++ leBytes 2 p.row_count ++
    leBytes 2 p.free_size ++ leBytes 2 p.used_size ++ leBytes 4 p.next_page ++
    p.free_area ++ (p.row_groups.map groupEncode).flatten

/-- Modelled from the spec (§3): one table descriptor. -/
structure Table where
  page_type : PageType
  first_page : Nat
  last_page : Nat
deriving DecidableEq, Repr

/-- Modelled from the spec (§3, §4.1): the header — file-wide `page_size` and
the ordered table directory; the rest of the header block is opaque
padding. -/
structure Header where
  page_size : Nat
  tables : List Table
  padding : List Nat
deriving DecidableEq, Repr

/-- Decode `n` table descriptors. -/
def readTables : Nat → List Nat → Option (List Table × List Nat)
  | 0, bs => some ([], bs)
  | n + 1, bs =>
    match readLE 4 bs with
    | none => none
    | some ptr =>
      match readLE 4 ptr.2 with
      | none => none
      | some fpr =>
        match readLE 4 fpr.2 with
        | none => none
        | some lpr =>
          match readTables n lpr.2 with
          | none => none
          | some rest =>
            some (⟨PageType.ofNat ptr.1, fpr.1, lpr.1⟩ :: rest.1, rest.2)

/-- Modelled from the spec (§4.1): parse the header block: `page_size`, the
table count, the table directory, opaque padding. -/
def headerDecode (bs : List Nat) : Option Header :=
  match readLE 4 bs with
  | none => none
  | some psr =>
    match readLE 4 psr.2 with
    | none => none
    | some ntr =>
      match readTables ntr.1 ntr.2 with
      | none => none
      | some tr => some { page_size := psr.1, tables := tr.1, padding := tr.2 }

def tableEncode (t : Table) : List Nat :=
  leBytes 4 t.page_type.toNat ++ leBytes 4 t.first_page ++ leBytes 4 t.last_page

/-- Modelled from the spec (§4.1, §4.5): serialize the identical header
layout. -/
def headerEncode (h : Header) : List Nat :=
  leBytes 4 h.page_size ++ leBytes 4 h.tables.length ++
    (h.tables.map tableEncode).flatten ++ h.padding

/-- The `page_size`-byte block of page `idx` (offset `idx * page_size`,
§3). -/
def pageSlice (F : List Nat) (ps idx : Nat) : List Nat := (F.drop (idx * ps)).take ps

/-- Modelled from the spec (§4.1): `Header::read` — fails with a
`FormatError` on an implausible page size (smaller than the fixed page
header) or a truncated/inconsistent header block. -/
def readHeader (F : List Nat) : Option Header :=
  match readLE 4 F with
  | none => none
  | some psr => if psr.1 < 18 then none else headerDecode (F.take psr.1)

/-- Modelled from the spec (§4.1): follow one table's page chain from `idx`
to `last`, decoding each page from its offset, checking that the stored
`page_index` matches the offset and that the page's type matches the owning
table (§3 invariant); the fuel bounds traversal by the file's own page count
(§5). -/
def readChain (F : List Nat) (ps : Nat) (pt : PageType) :
    Nat → Nat → Nat → Option (List Page)
  | 0, _, _ => none
  | fuel + 1, idx, last =>
    match pageDecode ps (pageSlice F ps idx) with
    | none => none
    | some p =>
      if p.page_index ≠ idx then none
      else if p.page_type ≠ pt then none
      else if idx = last then some [p]
      else
        match readChain F ps pt fuel p.next_page last with
        | none => none
        | some pages => some (p :: pages)

/-- Modelled from the spec (§4.1): `read_pages` for one table. -/
def readPages (F : List Nat) (h : Header) (t : Table) : Option (List Page) :=
  readChain F h.page_size t.page_type (F.length / h.page_size + 2) t.first_page t.last_page

/-- Read every table's chain, in table-directory order. -/
def readChains (F : List Nat) (h : Header) : List Table → Option (List Page)
  | [] => some []
  | t :: ts =>
    match readPages F h t with
    | none => none
    | some pgs =>
      match readChains F h ts with
      | none => none
      | some rest => some (pgs ++ rest)

/-- Modelled from the spec (§2, §3): the decoded whole file. -/
structure PdbFile where
  header : Header
  pages : List Page
deriving DecidableEq, Repr

/-- Modelled from the spec (§2–§5): whole-file decode — header first, then
every table's page chain; the traversal must visit the file's non-header
pages `1..N` exactly once each, in offset order (the §3 offset invariant
combined with the §4.1 no-gaps/no-repeats chain contract), which is what
makes the sequential whole-file writer of §4.5 an exact inverse. -/
def pdbDecode (F : List Nat) : Option PdbFile :=
  match readHeader F with
  | none => none
  | some hdr =>
    if F.length % hdr.page_size ≠ 0 then none
    else
      match readChains F hdr hdr.tables with
      | none => none
      | some pages =>
        if pages.map (fun p => p.page_index) = List.range' 1 (F.length / hdr.page_size - 1)
        then some ⟨hdr, pages⟩
        else none

/-- Modelled from the spec (§4.5): whole-file encode — header fields, then
for each table each page of its chain in read order. -/
def pdbEncode (f : PdbFile) : List Nat :=
  headerEncode f.header ++ (f.pages.map pageEncode).flatten

/-! ## `src/main.rs`: the CLI subcommands

`list_playlists` and `reexport_pdb` from `src/main.rs`.  `Header::read`
failures and file-open failures are propagated with `?` (modelled `.err`);
the `read_pages(..).unwrap()` calls at `src/main.rs:100` and
`src/main.rs:185` turn a chain-read failure into a process abort (modelled
`.panicked`). -/

/-- Outcome of one CLI subcommand: a propagated `Err` (diagnostic plus
non-zero exit), success, or an uncontrolled panic from `unwrap`. -/
inductive CliResult where
  | ok
  | err
  | panicked
deriving DecidableEq, Repr

/-- The `HashMap::entry(parent_id).or_default().push(row)` step of
`list_playlists` (`src/main.rs:118`), on an association list keyed by
parent id. -/
def addToTree : List (Nat × List PlaylistTreeNode) → PlaylistTreeNode →
    List (Nat × List PlaylistTreeNode)
  | [], node => [(node.parent_id, [node])]
  | (key, nodes) :: rest, node =>
    if key = node.parent_id then (key, nodes ++ [node]) :: rest
    else (key, nodes) :: addToTree rest node

/-- Group the playlist rows by `parent_id` in row order (the fold at
`src/main.rs:118`). -/
def buildTree (rows : List PlaylistTreeNode) : List (Nat × List PlaylistTreeNode) :=
  rows.foldl addToTree []

/-- `tree.get(&id)` followed by iteration (`src/main.rs:70`): the children
recorded under a parent id, empty when the id is absent. -/
def childrenOf (m : List (Nat × List PlaylistTreeNode)) (id : Nat) :
    List PlaylistTreeNode :=
  match m.find? (fun kv => kv.1 == id) with
  | none => []
  | some kv => kv.2

/-- The tree printed by `print_children_of` (`src/main.rs:65`–`82`): each
node's name, folder flag, and recursively rendered children.  The fuel bounds
the recursion depth (the Rust code would overflow the stack on cyclic parent
links). -/
inductive PTree where
  | node (name : DeviceString) (folder : Bool) (children : List PTree)

/-- Render the forest below `id`, as `print_children_of(tree, id, _)`
visits it. -/
def renderForest (m : List (Nat × List PlaylistTreeNode)) : Nat → Nat → List PTree
  | 0, _ => []
  | fuel + 1, id =>
    (childrenOf m id).map (fun r => PTree.node r.name r.isFolder (renderForest m fuel r.id))

/-- All playlist rows of the given pages, in page → row-group → slot order
(the iterator chain at `src/main.rs:93`–`117`). -/
def playlistRows (pages : List Page) : List PlaylistTreeNode :=
  ((pages.map (fun pg =>
    (pg.row_groups.map (fun g => g.presentRows.map (fun sr => rowNode sr.2))).flatten)).flatten)

/-- `list_playlists` (`src/main.rs:61`–`123`): read the header (propagating
failure), filter the table directory for the playlist-tree page-type, read
each such table's page chain with `.unwrap()` (panicking on failure), group
the rows by parent id and print the tree from root id 0. -/
def list_playlists (F : List Nat) : CliResult :=
  match readHeader F with
  | none => .err
  | some header =>
    match readChains F header
        (header.tables.filter (fun t => t.page_type == PageType.playlistTree)) with
    | none => .panicked
    | some pages =>
      let tree := buildTree (playlistRows pages)
      let _rendered := renderForest tree (playlistRows pages).length 0
      .ok

/-- `reexport_pdb` (`src/main.rs:163`–`200`): read the header (propagating
failure), then for every table read its page chain with `.unwrap()`
(panicking on failure) and write the pages back out. -/
def reexport_pdb (F : List Nat) : CliResult :=
  match readHeader F with
  | none => .err
  | some header =>
    match readChains F header header.tables with
    | none => .panicked
    | some _ => .ok
theorem leVal_nil : leVal [] = 0 := rfl

theorem leVal_cons (b : Nat) (bs : List Nat) :
    leVal (b :: bs) = b + 256 * leVal bs := rfl

/-- Characterization of `readLE`: it succeeds exactly on inputs of length at
least `n`, returning the little-endian value of the first `n` bytes. -/
theorem readLE_eq (n : Nat) (bs : List Nat) :
    readLE n bs = if n ≤ bs.length then some (leVal (bs.take n), bs.drop n) else none := by
  induction n generalizing bs with
  | zero => simp [readLE, leVal]
  | succ m ih =>
    cases bs with
    | nil => simp [readLE]
    | cons b rest =>
      simp only [readLE, ih rest, List.length_cons, List.take_succ_cons, List.drop_succ_cons]
      by_cases h : m ≤ rest.length
      · simp [h, Nat.succ_le_succ h, leVal_cons]
      · simp [h, fun hc => h (Nat.le_of_succ_le_succ hc)]

/-- Characterization of `readBytes`: it succeeds exactly on inputs of length at
least `n`, returning the first `n` bytes. -/
theorem readBytes_eq (n : Nat) (bs : List Nat) :
    readBytes n bs = if n ≤ bs.length then some (bs.take n, bs.drop n) else none := by
  induction n generalizing bs with
  | zero => simp [readBytes]
  | succ m ih =>
    cases bs with
    | nil => simp [readBytes]
    | cons b rest =>
      simp only [readBytes, ih rest, List.length_cons, List.take_succ_cons, List.drop_succ_cons]
      by_cases h : m ≤ rest.length
      · simp [h, Nat.succ_le_succ h]
      · simp [h, fun hc => h (Nat.le_of_succ_le_succ hc)]

theorem leBytes_length (n v : Nat) : (leBytes n v).length = n := by
  induction n generalizing v with
  | zero => rfl
  | succ m ih => simp [leBytes, ih]

/-- Decoding after encoding: `leVal (leBytes n v) = v` for `v < 256 ^ n`. -/
theorem leVal_leBytes (n v : Nat) (h : v < 256 ^ n) : leVal (leBytes n v) = v := by
  induction n generalizing v with
  | zero => simp [Nat.pow_zero] at h; simp [leBytes, leVal]; omega
  | succ m ih =>
    have hdiv : v / 256 < 256 ^ m := by
      rw [Nat.div_lt_iff_lt_mul (by omega)]
      calc v < 256 ^ (m + 1) := h
        _ = 256 ^ m * 256 := by rw [Nat.pow_succ]
    simp [leBytes, leVal_cons, ih (v / 256) hdiv]
    omega

/-- Encoding after decoding: a byte list of length `n` is reproduced by
`leBytes n` from its little-endian value. -/
theorem leBytes_leVal (n : Nat) (bs : List Nat) (hlen : bs.length = n)
    (hb : ∀ b ∈ bs, b < 256) : leBytes n (leVal bs) = bs := by
  induction n generalizing bs with
  | zero => simp [List.length_eq_zero] at hlen; simp [hlen, leBytes]
  | succ m ih =>
    cases bs with
    | nil => simp at hlen
    | cons b rest =>
      have hb0 : b < 256 := hb b (by simp)
      have hv : leVal (b :: rest) % 256 = b := by
        simp [leVal_cons, Nat.add_mul_mod_self_left, Nat.mod_eq_of_lt hb0]
      have hd : leVal (b :: rest) / 256 = leVal rest := by
        simp [leVal_cons]
        omega
      simp only [leBytes, hv, hd]
      have := ih rest (by simpa using hlen) (fun x hx => hb x (by simp [hx]))
      rw [this]

theorem leVal_lt (bs : List Nat) (hb : ∀ b ∈ bs, b < 256) :
    leVal bs < 256 ^ bs.length := by
  induction bs with
  | nil => simp [leVal]
  | cons b rest ih =>
    have hb0 : b < 256 := hb b (by simp)
    have hr := ih (fun x hx => hb x (by simp [hx]))
    simp only [leVal_cons, List.length_cons, Nat.pow_succ]
    calc b + 256 * leVal rest < 256 + 256 * leVal rest := by omega
      _ ≤ 256 * (leVal rest + 1) := by omega
      _ ≤ 256 * 256 ^ rest.length := by
          have : leVal rest + 1 ≤ 256 ^ rest.length := hr
          exact Nat.mul_le_mul_left 256 this
      _ = 256 ^ rest.length * 256 := by ring

example : Setting.parse [3, 0, 0, 0, 255] = .panicked := by decide

example :
    Setting.parse [0, 0, 0, 0, 0, 0, 0, 0, 7, 0, 1, 0] =
      .ok [] { len_stringdata := 0, company := [], software := [], version := [],
               len_unknown1 := 0, unknown1 := [], checksum := 7, unknown2 := 1 } := by
  decide

/-- Helper: drop-of-drop with an arithmetic offset equation. -/
theorem drop_drop_eq {A : Type} (l : List A) (a b c : Nat) (h : a + b = c) :
    (l.drop b).drop a = l.drop c := by
  subst h
  rw [List.drop_drop, Nat.add_comm]

/-- Full characterization of a successful `Setting.parse`, with the derived
string-section size `k = len_stringdata / 3` and payload size `U = len_unknown1`
as named parameters. -/
theorem Setting.parse_ok_iff (input r : List Nat) (s : Setting) (k U : Nat)
    (hk : k = leVal (input.take 4) / 3)
    (hU : U = leVal ((input.drop (4 + 3 * k)).take 4)) :
    Setting.parse input = .ok r s ↔
      ∃ c1 c2 c3,
        utf8Decode ((input.drop 4).take k) = some c1 ∧
        utf8Decode ((input.drop (4 + k)).take k) = some c2 ∧
        utf8Decode ((input.drop (4 + 2 * k)).take k) = some c3 ∧
        input.length = 12 + 3 * k + U ∧
        r = [] ∧
        s = { len_stringdata := leVal (input.take 4)
              company := trimEndNul c1
              software := trimEndNul c2
              version := trimEndNul c3
              len_unknown1 := U
              unknown1 := (input.drop (8 + 3 * k)).take U
              checksum := leVal ((input.drop (8 + 3 * k + U)).take 2)
              unknown2 := leVal ((input.drop (10 + 3 * k + U)).take 2) } := by
  have e1 : (input.drop 4).drop k = input.drop (4 + k) := drop_drop_eq _ _ _ _ (by omega)
  have e2 : (input.drop (4 + k)).drop k = input.drop (4 + 2 * k) := drop_drop_eq _ _ _ _ (by omega)
  have e3 : (input.drop (4 + 2 * k)).drop k = input.drop (4 + 3 * k) := drop_drop_eq _ _ _ _ (by omega)
  have e4 : (input.drop (4 + 3 * k)).drop 4 = input.drop (8 + 3 * k) := drop_drop_eq _ _ _ _ (by omega)
  have e5 : (input.drop (8 + 3 * k)).drop U = input.drop (8 + 3 * k + U) := drop_drop_eq _ _ _ _ (by omega)
  have e6 : (input.drop (8 + 3 * k + U)).drop 2 = input.drop (10 + 3 * k + U) := drop_drop_eq _ _ _ _ (by omega)
  have e7 : (input.drop (10 + 3 * k + U)).drop 2 = input.drop (12 + 3 * k + U) := drop_drop_eq _ _ _ _ (by omega)
  constructor
  · intro h
    unfold Setting.parse at h
    rw [readLE_eq] at h
    by_cases h4 : 4 ≤ input.length
    case neg => rw [if_neg h4] at h; exact absurd h (by simp)
    rw [if_pos h4] at h
    simp only [] at h
    rw [← hk, readBytes_eq] at h
    by_cases hl1 : k ≤ (input.drop 4).length
    case neg => rw [if_neg hl1] at h; exact absurd h (by simp)
    rw [if_pos hl1] at h
    simp only [] at h
    rcases hu1 : utf8Decode ((input.drop 4).take k) with _ | c1
    · rw [hu1] at h; exact absurd h (by simp)
    rw [hu1] at h
    simp only [] at h
    rw [e1, readBytes_eq] at h
    by_cases hl2 : k ≤ (input.drop (4 + k)).length
    case neg => rw [if_neg hl2] at h; exact absurd h (by simp)
    rw [if_pos hl2] at h
    simp only [] at h
    rcases hu2 : utf8Decode ((input.drop (4 + k)).take k) with _ | c2
    · rw [hu2] at h; exact absurd h (by simp)
    rw [hu2] at h
    simp only [] at h
    rw [e2, readBytes_eq] at h
    by_cases hl3 : k ≤ (input.drop (4 + 2 * k)).length
    case neg => rw [if_neg hl3] at h; exact absurd h (by simp)
    rw [if_pos hl3] at h
    simp only [] at h
    rcases hu3 : utf8Decode ((input.drop (4 + 2 * k)).take k) with _ | c3
    · rw [hu3] at h; exact absurd h (by simp)
    rw [hu3] at h
    simp only [] at h
    rw [e3, readLE_eq] at h
    by_cases hl4 : 4 ≤ (input.drop (4 + 3 * k)).length
    case neg => rw [if_neg hl4] at h; exact absurd h (by simp)
    rw [if_pos hl4] at h
    simp only [] at h
    rw [← hU, e4, readBytes_eq] at h
    by_cases hl5 : U ≤ (input.drop (8 + 3 * k)).length
    case neg => rw [if_neg hl5] at h; exact absurd h (by simp)
    rw [if_pos hl5] at h
    simp only [] at h
    rw [e5, readLE_eq] at h
    by_cases hl6 : 2 ≤ (input.drop (8 + 3 * k + U)).length
    case neg => rw [if_neg hl6] at h; exact absurd h (by simp)
    rw [if_pos hl6] at h
    simp only [] at h
    rw [e6, readLE_eq] at h
    by_cases hl7 : 2 ≤ (input.drop (10 + 3 * k + U)).length
    case neg => rw [if_neg hl7] at h; exact absurd h (by simp)
    rw [if_pos hl7] at h
    simp only [] at h
    rw [e7] at h
    by_cases hemp : (input.drop (12 + 3 * k + U)).isEmpty
    case neg => rw [if_neg hemp] at h; exact absurd h (by simp)
    rw [if_pos hemp] at h
    rw [List.isEmpty_iff] at hemp
    have hlen : input.length = 12 + 3 * k + U := by
      have h2 : (input.drop (12 + 3 * k + U)).length = 0 := by rw [hemp]; rfl
      have h3 := List.length_drop (12 + 3 * k + U) input
      have h1 := List.length_drop (10 + 3 * k + U) input
      omega
    cases h
    exact ⟨c1, c2, c3, rfl, rfl, rfl, hlen, hemp, rfl⟩
  · rintro ⟨c1, c2, c3, hu1, hu2, hu3, hlen, hr, hs⟩
    subst hr hs
    unfold Setting.parse
    rw [readLE_eq, if_pos (by omega : 4 ≤ input.length)]
    simp only []
    rw [← hk, readBytes_eq,
      if_pos (by rw [List.length_drop]; omega : k ≤ (input.drop 4).length)]
    simp only []
    rw [hu1]
    simp only []
    rw [e1, readBytes_eq,
      if_pos (by rw [List.length_drop]; omega : k ≤ (input.drop (4 + k)).length)]
    simp only []
    rw [hu2]
    simp only []
    rw [e2, readBytes_eq,
      if_pos (by rw [List.length_drop]; omega : k ≤ (input.drop (4 + 2 * k)).length)]
    simp only []
    rw [hu3]
    simp only []
    rw [e3, readLE_eq,
      if_pos (by rw [List.length_drop]; omega : 4 ≤ (input.drop (4 + 3 * k)).length)]
    simp only []
    rw [← hU, e4, readBytes_eq,
      if_pos (by rw [List.length_drop]; omega : U ≤ (input.drop (8 + 3 * k)).length)]
    simp only []
    rw [e5, readLE_eq,
      if_pos (by rw [List.length_drop]; omega : 2 ≤ (input.drop (8 + 3 * k + U)).length)]
    simp only []
    rw [e6, readLE_eq,
      if_pos (by rw [List.length_drop]; omega : 2 ≤ (input.drop (10 + 3 * k + U)).length)]
    simp only []
    rw [e7]
    have hemp : (input.drop (12 + 3 * k + U)) = [] :=
      List.eq_nil_of_length_eq_zero (by rw [List.length_drop]; omega)
    rw [hemp]
    simp

/-- Helper: taking inside an appended list stays within the prefix. -/
theorem takeDropApp {A : Type} (p X : List A) (off n : Nat) (h : off + n ≤ p.length) :
    ((p ++ X).drop off).take n = (p.drop off).take n := by
  rw [List.drop_append_of_le_length (by omega),
    List.take_append_of_le_length (by rw [List.length_drop]; omega)]

theorem isOk_iff (x : SResult) : x.isOk = true ↔ ∃ r s, x = .ok r s := by
  cases x <;> simp [SResult.isOk]

/-- C8: For every input on which `Setting::parse` succeeds, the result is the
flat structure: a little-endian u32 `len_stringdata`; three consecutive string
sections of `len_stringdata / 3` bytes each, decoded as UTF-8 with trailing
NULs trimmed (company, software, version); a little-endian u32 `len_unknown1`;
exactly `len_unknown1` opaque payload bytes; a little-endian u16 checksum; and
a final little-endian u16 trailer field — each returned field equal to the
value so decoded. -/
theorem setting_parse_flat_structure (input r : List Nat) (s : Setting)
    (h : Setting.parse input = .ok r s) :
    s.len_stringdata = leVal (input.take 4) ∧
    (∃ c, utf8Decode ((input.drop 4).take (s.len_stringdata / 3)) = some c ∧
      s.company = trimEndNul c) ∧
    (∃ c, utf8Decode ((input.drop (4 + s.len_stringdata / 3)).take (s.len_stringdata / 3)) =
      some c ∧ s.software = trimEndNul c) ∧
    (∃ c, utf8Decode
        ((input.drop (4 + 2 * (s.len_stringdata / 3))).take (s.len_stringdata / 3)) =
      some c ∧ s.version = trimEndNul c) ∧
    s.len_unknown1 = leVal ((input.drop (4 + 3 * (s.len_stringdata / 3))).take 4) ∧
    s.unknown1 = (input.drop (8 + 3 * (s.len_stringdata / 3))).take s.len_unknown1 ∧
    s.unknown1.length = s.len_unknown1 ∧
    s.checksum = leVal ((input.drop (8 + 3 * (s.len_stringdata / 3) + s.len_unknown1)).take 2) ∧
    s.unknown2 = leVal ((input.drop (10 + 3 * (s.len_stringdata / 3) + s.len_unknown1)).take 2) ∧
    input.length = 12 + 3 * (s.len_stringdata / 3) + s.len_unknown1 := by
  obtain ⟨c1, c2, c3, hu1, hu2, hu3, hlen, hr, hs⟩ :=
    (Setting.parse_ok_iff input r s _ _ rfl rfl).mp h
  subst hs
  refine ⟨rfl, ⟨c1, hu1, rfl⟩, ⟨c2, hu2, rfl⟩, ⟨c3, hu3, rfl⟩, rfl, rfl, ?_, rfl, rfl, hlen⟩
  dsimp only
  rw [List.length_take, List.length_drop]
  omega

/-- Witness for C8 at a concrete 12-byte input. -/
theorem setting_parse_flat_structure_w :
    ({ len_stringdata := 0, company := [], software := [], version := [],
       len_unknown1 := 0, unknown1 := [], checksum := 7, unknown2 := 1 } : Setting).len_stringdata
      = leVal (([0, 0, 0, 0, 0, 0, 0, 0, 7, 0, 1, 0] : List Nat).take 4) :=
  (setting_parse_flat_structure [0, 0, 0, 0, 0, 0, 0, 0, 7, 0, 1, 0] []
    { len_stringdata := 0, company := [], software := [], version := [],
      len_unknown1 := 0, unknown1 := [], checksum := 7, unknown2 := 1 } (by decide)).1

/-- Helper for C9: appending surplus bytes to an exactly-consumed input makes
`Setting::parse` fail with an error (the `!input.is_empty()` check). -/
theorem setting_parse_append_err (input r ext : List Nat) (s : Setting) (k U : Nat)
    (hk : k = leVal (input.take 4) / 3)
    (hU : U = leVal ((input.drop (4 + 3 * k)).take 4))
    (h : Setting.parse input = .ok r s) (hext : ext ≠ []) :
    Setting.parse (input ++ ext) = .err := by
  obtain ⟨c1, c2, c3, hu1, hu2, hu3, hlen, hr, hs⟩ :=
    (Setting.parse_ok_iff input r s k U hk hU).mp h
  have e1 : ((input ++ ext).drop 4).drop k = (input ++ ext).drop (4 + k) :=
    drop_drop_eq _ _ _ _ (by omega)
  have e2 : ((input ++ ext).drop (4 + k)).drop k = (input ++ ext).drop (4 + 2 * k) :=
    drop_drop_eq _ _ _ _ (by omega)
  have e3 : ((input ++ ext).drop (4 + 2 * k)).drop k = (input ++ ext).drop (4 + 3 * k) :=
    drop_drop_eq _ _ _ _ (by omega)
  have e4 : ((input ++ ext).drop (4 + 3 * k)).drop 4 = (input ++ ext).drop (8 + 3 * k) :=
    drop_drop_eq _ _ _ _ (by omega)
  have e5 : ((input ++ ext).drop (8 + 3 * k)).drop U = (input ++ ext).drop (8 + 3 * k + U) :=
    drop_drop_eq _ _ _ _ (by omega)
  have e6 : ((input ++ ext).drop (8 + 3 * k + U)).drop 2 =
      (input ++ ext).drop (10 + 3 * k + U) := drop_drop_eq _ _ _ _ (by omega)
  have e7 : ((input ++ ext).drop (10 + 3 * k + U)).drop 2 =
      (input ++ ext).drop (12 + 3 * k + U) := drop_drop_eq _ _ _ _ (by omega)
  have hlapp : (input ++ ext).length = input.length + ext.length := List.length_append _ _
  unfold Setting.parse
  rw [readLE_eq, if_pos (by omega : 4 ≤ (input ++ ext).length)]
  simp only []
  rw [List.take_append_of_le_length (by omega : 4 ≤ input.length), ← hk, readBytes_eq,
    if_pos (by rw [List.length_drop]; omega : k ≤ ((input ++ ext).drop 4).length)]
  simp only []
  rw [takeDropApp input ext 4 k (by omega), hu1]
  simp only []
  rw [e1, readBytes_eq,
    if_pos (by rw [List.length_drop]; omega : k ≤ ((input ++ ext).drop (4 + k)).length)]
  simp only []
  rw [takeDropApp input ext (4 + k) k (by omega), hu2]
  simp only []
  rw [e2, readBytes_eq,
    if_pos (by rw [List.length_drop]; omega : k ≤ ((input ++ ext).drop (4 + 2 * k)).length)]
  simp only []
  rw [takeDropApp input ext (4 + 2 * k) k (by omega), hu3]
  simp only []
  rw [e3, readLE_eq,
    if_pos (by rw [List.length_drop]; omega : 4 ≤ ((input ++ ext).drop (4 + 3 * k)).length)]
  simp only []
  rw [takeDropApp input ext (4 + 3 * k) 4 (by omega), ← hU, e4, readBytes_eq,
    if_pos (by rw [List.length_drop]; omega : U ≤ ((input ++ ext).drop (8 + 3 * k)).length)]
  simp only []
  rw [e5, readLE_eq,
    if_pos (by rw [List.length_drop]; omega : 2 ≤ ((input ++ ext).drop (8 + 3 * k + U)).length)]
  simp only []
  rw [e6, readLE_eq,
    if_pos (by rw [List.length_drop]; omega : 2 ≤ ((input ++ ext).drop (10 + 3 * k + U)).length)]
  simp only []
  rw [e7]
  have hrem : (input ++ ext).drop (12 + 3 * k + U) = ext := by
    rw [← hlen, List.drop_append_of_le_length (Nat.le_refl _), List.drop_length,
      List.nil_append]
  rw [hrem]
  have : ext.isEmpty = false := by
    cases ext with
    | nil => exact absurd rfl hext
    | cons a t => rfl
  rw [this]
  simp

/-- C9: `Setting::parse` succeeds only when it consumes its input exactly: on
every successful parse the returned remaining-input slice is empty, and if any
bytes remain after the final u16 field it returns an error. -/
theorem setting_parse_exact_consumption :
    (∀ input r s, Setting.parse input = .ok r s → r = []) ∧
    (∀ input r s ext, Setting.parse input = .ok r s → ext ≠ [] →
      Setting.parse (input ++ ext) = .err) := by
  constructor
  · intro input r s h
    obtain ⟨_, _, _, _, _, _, _, hr, _⟩ :=
      (Setting.parse_ok_iff input r s _ _ rfl rfl).mp h
    exact hr
  · intro input r s ext h hext
    exact setting_parse_append_err input r ext s _ _ rfl rfl h hext

/-- Witness for C9 at a concrete input: 12 zero bytes parse with empty
remainder, and one surplus byte turns the parse into an error. -/
theorem setting_parse_exact_consumption_w :
    ([] : List Nat) = [] ∧
    Setting.parse ([0, 0, 0, 0, 0, 0, 0, 0, 0, 0, 0, 0] ++ [5]) = .err := by
  constructor
  · exact setting_parse_exact_consumption.1 [0, 0, 0, 0, 0, 0, 0, 0, 0, 0, 0, 0] []
      { len_stringdata := 0, company := [], software := [], version := [],
        len_unknown1 := 0, unknown1 := [], checksum := 0, unknown2 := 0 } (by decide)
  · exact setting_parse_exact_consumption.2 [0, 0, 0, 0, 0, 0, 0, 0, 0, 0, 0, 0] []
      { len_stringdata := 0, company := [], software := [], version := [],
        len_unknown1 := 0, unknown1 := [], checksum := 0, unknown2 := 0 } [5] (by decide)
      (by simp)

/-- C4 counterexample: on input `[3, 0, 0, 0, 255]` the string sections have
size `3 / 3 = 1` and the first section is the non-UTF-8 byte `0xFF`, so
`Setting::parse` hits `std::str::from_utf8(...).unwrap()` and panics instead
of returning a parse error. -/
theorem setting_parse_panics_on_bad_utf8 :
    Setting.parse [3, 0, 0, 0, 255] = .panicked := by decide

/-- C4 (amended): `Setting::parse` never performs an out-of-bounds access
(every slice operation is bounds-checked via nom), and for every input whose
three string sections are valid UTF-8 it returns either a successfully parsed
`Setting` or a parse error; but when a string section is invalid UTF-8 it
panics (see the counterexample), so totality holds only under the UTF-8
hypotheses. -/
theorem setting_parse_no_panic (input : List Nat) (k : Nat)
    (hk : k = leVal (input.take 4) / 3)
    (h1 : (utf8Decode ((input.drop 4).take k)).isSome)
    (h2 : (utf8Decode ((input.drop (4 + k)).take k)).isSome)
    (h3 : (utf8Decode ((input.drop (4 + 2 * k)).take k)).isSome) :
    (∃ r s, Setting.parse input = .ok r s) ∨ Setting.parse input = .err := by
  have e1 : (input.drop 4).drop k = input.drop (4 + k) := drop_drop_eq _ _ _ _ (by omega)
  have e2 : (input.drop (4 + k)).drop k = input.drop (4 + 2 * k) :=
    drop_drop_eq _ _ _ _ (by omega)
  unfold Setting.parse
  rw [readLE_eq]
  by_cases h4 : 4 ≤ input.length
  case neg => rw [if_neg h4]; exact Or.inr rfl
  rw [if_pos h4]
  simp only []
  rw [← hk, readBytes_eq]
  by_cases hl1 : k ≤ (input.drop 4).length
  case neg => rw [if_neg hl1]; exact Or.inr rfl
  rw [if_pos hl1]
  simp only []
  obtain ⟨c1, hc1⟩ := Option.isSome_iff_exists.mp h1
  rw [hc1]
  simp only []
  rw [e1, readBytes_eq]
  by_cases hl2 : k ≤ (input.drop (4 + k)).length
  case neg => rw [if_neg hl2]; exact Or.inr rfl
  rw [if_pos hl2]
  simp only []
  obtain ⟨c2, hc2⟩ := Option.isSome_iff_exists.mp h2
  rw [hc2]
  simp only []
  rw [e2, readBytes_eq]
  by_cases hl3 : k ≤ (input.drop (4 + 2 * k)).length
  case neg => rw [if_neg hl3]; exact Or.inr rfl
  rw [if_pos hl3]
  simp only []
  obtain ⟨c3, hc3⟩ := Option.isSome_iff_exists.mp h3
  rw [hc3]
  simp only []
  cases hr4 : readLE 4 ((input.drop (4 + 2 * k)).drop k) with
  | none => exact Or.inr rfl
  | some v5 =>
    simp only []
    cases hr5 : readBytes v5.1 v5.2 with
    | none => exact Or.inr rfl
    | some v6 =>
      simp only []
      cases hr6 : readLE 2 v6.2 with
      | none => exact Or.inr rfl
      | some v7 =>
        simp only []
        cases hr7 : readLE 2 v7.2 with
        | none => exact Or.inr rfl
        | some v8 =>
          simp only []
          by_cases hemp : v8.2.isEmpty
          · rw [if_pos hemp]
            exact Or.inl ⟨_, _, rfl⟩
          · rw [if_neg hemp]
            exact Or.inr rfl

/-- Witness for C4's amended theorem at twelve zero bytes (all three string
sections empty, hence valid UTF-8). -/
theorem setting_parse_no_panic_w :
    (∃ r s, Setting.parse [0, 0, 0, 0, 0, 0, 0, 0, 0, 0, 0, 0] = .ok r s) ∨
      Setting.parse [0, 0, 0, 0, 0, 0, 0, 0, 0, 0, 0, 0] = .err :=
  setting_parse_no_panic [0, 0, 0, 0, 0, 0, 0, 0, 0, 0, 0, 0] 0 (by decide)
    (by decide) (by decide) (by decide)

theorem take_replicate_eq {A : Type} (a : A) (k m : Nat) :
    (List.replicate m a).take k = List.replicate (min k m) a := by
  induction m generalizing k with
  | zero => simp
  | succ m2 ih =>
    cases k with
    | zero => simp
    | succ k2 =>
      simp only [List.replicate_succ, List.take_succ_cons, ih, Nat.succ_min_succ]

theorem drop_replicate_eq {A : Type} (a : A) (k m : Nat) :
    (List.replicate m a).drop k = List.replicate (m - k) a := by
  induction m generalizing k with
  | zero => simp
  | succ m2 ih =>
    cases k with
    | zero => simp
    | succ k2 =>
      simp only [List.replicate_succ, List.drop_succ_cons, ih, Nat.succ_sub_succ]

theorem utf8DecodeAux_replicate_zero (k : Nat) :
    utf8DecodeAux k (List.replicate k 0) = some (List.replicate k (Char.ofNat 0)) := by
  induction k with
  | zero => rfl
  | succ m ih =>
    rw [List.replicate_succ]
    simp only [utf8DecodeAux]
    rw [show utf8Step (0 :: List.replicate m 0) = some (Char.ofNat 0, List.replicate m 0)
      from rfl]
    simp [ih, List.replicate_succ]

theorem utf8Decode_replicate_zero (k : Nat) :
    utf8Decode (List.replicate k 0) = some (List.replicate k (Char.ofNat 0)) := by
  unfold utf8Decode
  rw [List.length_replicate]
  exact utf8DecodeAux_replicate_zero k

theorem trimEndNul_replicate_zero (k : Nat) :
    trimEndNul (List.replicate k (Char.ofNat 0)) = [] := by
  unfold trimEndNul
  rw [List.reverse_replicate]
  have : List.dropWhile (fun c => decide (c = Char.ofNat 0)) (List.replicate k (Char.ofNat 0))
      = [] := by
    induction k with
    | zero => rfl
    | succ m ih => simp [List.replicate_succ, List.dropWhile, ih]
  rw [this]
  rfl

/-- Helper for C10: over inputs shaped `p ++ checksum-bytes ++ t` where `p` is
exactly the pre-checksum region (length fields, string table, payload),
success of `Setting::parse` depends only on `p`'s string sections and on
`t.length = 2` — not on the checksum bytes. -/
theorem setting_parse_isOk_chk (p t : List Nat) (c d : Nat) (k U : Nat)
    (hk : k = leVal (p.take 4) / 3)
    (hU : U = leVal ((p.drop (4 + 3 * k)).take 4))
    (hp : p.length = 8 + 3 * k + U) :
    (Setting.parse (p ++ c :: d :: t)).isOk = true ↔
      ((∃ cs, utf8Decode ((p.drop 4).take k) = some cs) ∧
       (∃ cs, utf8Decode ((p.drop (4 + k)).take k) = some cs) ∧
       (∃ cs, utf8Decode ((p.drop (4 + 2 * k)).take k) = some cs) ∧
       t.length = 2) := by
  have hX4 : (p ++ c :: d :: t).take 4 = p.take 4 :=
    List.take_append_of_le_length (by omega)
  have hXs1 : ((p ++ c :: d :: t).drop 4).take k = (p.drop 4).take k :=
    takeDropApp _ _ 4 k (by omega)
  have hXs2 : ((p ++ c :: d :: t).drop (4 + k)).take k = (p.drop (4 + k)).take k :=
    takeDropApp _ _ (4 + k) k (by omega)
  have hXs3 : ((p ++ c :: d :: t).drop (4 + 2 * k)).take k = (p.drop (4 + 2 * k)).take k :=
    takeDropApp _ _ (4 + 2 * k) k (by omega)
  have hXU : ((p ++ c :: d :: t).drop (4 + 3 * k)).take 4 = (p.drop (4 + 3 * k)).take 4 :=
    takeDropApp _ _ (4 + 3 * k) 4 (by omega)
  have hkX : k = leVal ((p ++ c :: d :: t).take 4) / 3 := by rw [hX4]; exact hk
  have hUX : U = leVal (((p ++ c :: d :: t).drop (4 + 3 * k)).take 4) := by
    rw [hXU]; exact hU
  have hXlen : (p ++ c :: d :: t).length = p.length + 2 + t.length := by
    rw [List.length_append]
    simp
    omega
  rw [isOk_iff]
  constructor
  · rintro ⟨r, s, hok⟩
    obtain ⟨c1, c2, c3, hu1, hu2, hu3, hlen, _, _⟩ :=
      (Setting.parse_ok_iff _ r s k U hkX hUX).mp hok
    rw [hXs1] at hu1
    rw [hXs2] at hu2
    rw [hXs3] at hu3
    exact ⟨⟨c1, hu1⟩, ⟨c2, hu2⟩, ⟨c3, hu3⟩, by omega⟩
  · rintro ⟨⟨c1, hu1⟩, ⟨c2, hu2⟩, ⟨c3, hu3⟩, ht⟩
    refine ⟨[], _,
      (Setting.parse_ok_iff _ [] _ k U hkX hUX).mpr ⟨c1, c2, c3, ?_, ?_, ?_, ?_, rfl, rfl⟩⟩
    · rw [hXs1]; exact hu1
    · rw [hXs2]; exact hu2
    · rw [hXs3]; exact hu3
    · omega

/-- C10: `Setting::parse` does not validate the file's self-declared metadata:
it accepts any `len_stringdata` value (not only 96), splitting the string table
into three sections of `len_stringdata / 3` bytes each, and it stores the
checksum without verifying it — two inputs differing only in the checksum
bytes succeed or fail together. -/
theorem setting_parse_no_validation :
    (∀ n, n < 2 ^ 32 →
      Setting.parse (leBytes 4 n ++ (List.replicate (3 * (n / 3)) 0 ++
          [0, 0, 0, 0, 0, 0, 0, 0])) =
        .ok [] { len_stringdata := n, company := [], software := [], version := [],
                 len_unknown1 := 0, unknown1 := [], checksum := 0, unknown2 := 0 }) ∧
    (∀ p t : List Nat, ∀ c d c2 d2 : Nat,
      p.length = 8 + 3 * (leVal (p.take 4) / 3) +
        leVal ((p.drop (4 + 3 * (leVal (p.take 4) / 3))).take 4) →
      (Setting.parse (p ++ c :: d :: t)).isOk =
        (Setting.parse (p ++ c2 :: d2 :: t)).isOk) := by
  constructor
  · intro n hn
    set k := n / 3 with hkdef
    set input := leBytes 4 n ++ (List.replicate (3 * k) 0 ++ [0, 0, 0, 0, 0, 0, 0, 0])
      with hinput
    have hlb : (leBytes 4 n).length = 4 := leBytes_length 4 n
    have htake4 : input.take 4 = leBytes 4 n := by
      rw [hinput, List.take_append_of_le_length (le_of_eq hlb.symm)]
      exact List.take_of_length_le (le_of_eq hlb)
    have hL : leVal (input.take 4) = n := by rw [htake4]; exact leVal_leBytes 4 n hn
    have hd4 : input.drop 4 = List.replicate (3 * k) 0 ++ [0, 0, 0, 0, 0, 0, 0, 0] := by
      rw [hinput, List.drop_append_of_le_length (le_of_eq hlb.symm),
        List.drop_eq_nil_of_le (le_of_eq hlb), List.nil_append]
    have hd4k : input.drop (4 + k) = List.replicate (2 * k) 0 ++ [0, 0, 0, 0, 0, 0, 0, 0] := by
      rw [← drop_drop_eq input k 4 (4 + k) (by omega), hd4,
        List.drop_append_of_le_length (by rw [List.length_replicate]; omega),
        drop_replicate_eq]
      have : 3 * k - k = 2 * k := by omega
      rw [this]
    have hd42k : input.drop (4 + 2 * k) = List.replicate k 0 ++ [0, 0, 0, 0, 0, 0, 0, 0] := by
      rw [← drop_drop_eq input (2 * k) 4 (4 + 2 * k) (by omega), hd4,
        List.drop_append_of_le_length (by rw [List.length_replicate]; omega),
        drop_replicate_eq]
      have : 3 * k - 2 * k = k := by omega
      rw [this]
    have hd43k : input.drop (4 + 3 * k) = [0, 0, 0, 0, 0, 0, 0, 0] := by
      rw [← drop_drop_eq input (3 * k) 4 (4 + 3 * k) (by omega), hd4,
        List.drop_append_of_le_length (List.length_replicate (3 * k) 0).symm.le,
        drop_replicate_eq]
      simp
    have hs1 : (input.drop 4).take k = List.replicate k 0 := by
      rw [hd4, List.take_append_of_le_length (by rw [List.length_replicate]; omega),
        take_replicate_eq]
      have : min k (3 * k) = k := by omega
      rw [this]
    have hs2 : (input.drop (4 + k)).take k = List.replicate k 0 := by
      rw [hd4k, List.take_append_of_le_length (by rw [List.length_replicate]; omega),
        take_replicate_eq]
      have : min k (2 * k) = k := by omega
      rw [this]
    have hs3 : (input.drop (4 + 2 * k)).take k = List.replicate k 0 := by
      rw [hd42k, List.take_append_of_le_length (List.length_replicate k 0).symm.le,
        take_replicate_eq]
      have : min k k = k := by omega
      rw [this]
    have hU : leVal ((input.drop (4 + 3 * k)).take 4) = 0 := by rw [hd43k]; rfl
    have hd83 : input.drop (8 + 3 * k) = [0, 0, 0, 0] := by
      rw [← drop_drop_eq input 4 (4 + 3 * k) (8 + 3 * k) (by omega), hd43k]
      rfl
    have hd103 : input.drop (10 + 3 * k) = [0, 0] := by
      rw [← drop_drop_eq input 2 (8 + 3 * k) (10 + 3 * k) (by omega), hd83]
      rfl
    have hlen : input.length = 12 + 3 * k + 0 := by
      rw [hinput, List.length_append, List.length_append, hlb, List.length_replicate]
      simp
      omega
    refine (Setting.parse_ok_iff _ [] _ k 0 (by rw [hL]) hU.symm).mpr
      ⟨List.replicate k (Char.ofNat 0), List.replicate k (Char.ofNat 0),
        List.replicate k (Char.ofNat 0), ?_, ?_, ?_, hlen, rfl, ?_⟩
    · rw [hs1]; exact utf8Decode_replicate_zero k
    · rw [hs2]; exact utf8Decode_replicate_zero k
    · rw [hs3]; exact utf8Decode_replicate_zero k
    · have hz : leVal [0, 0] = 0 := rfl
      simp [Setting.mk.injEq, hL, trimEndNul_replicate_zero, hd83, hd103, hz]
  · intro p t c d c2 d2 hp
    have h1 := setting_parse_isOk_chk p t c d _ _ rfl rfl hp
    have h2 := setting_parse_isOk_chk p t c2 d2 _ _ rfl rfl hp
    cases hb1 : (Setting.parse (p ++ c :: d :: t)).isOk with
    | true => exact (h2.mpr (h1.mp hb1)).symm
    | false =>
      cases hb2 : (Setting.parse (p ++ c2 :: d2 :: t)).isOk with
      | true => exact absurd (h1.mpr (h2.mp hb2)) (by simp [hb1])
      | false => rfl

/-- Witness for C10: the first half at `n = 5` (a `len_stringdata` of 5, not
96, is accepted), the second half at concrete checksum bytes `[1, 2]` versus
`[3, 4]`. -/
theorem setting_parse_no_validation_w :
    Setting.parse (leBytes 4 5 ++ (List.replicate (3 * (5 / 3)) 0 ++
        [0, 0, 0, 0, 0, 0, 0, 0])) =
      .ok [] { len_stringdata := 5, company := [], software := [], version := [],
               len_unknown1 := 0, unknown1 := [], checksum := 0, unknown2 := 0 } ∧
    (Setting.parse ([0, 0, 0, 0, 0, 0, 0, 0] ++ 1 :: 2 :: [0, 0])).isOk =
      (Setting.parse ([0, 0, 0, 0, 0, 0, 0, 0] ++ 3 :: 4 :: [0, 0])).isOk :=
  ⟨setting_parse_no_validation.1 5 (by norm_num),
   setting_parse_no_validation.2 [0, 0, 0, 0, 0, 0, 0, 0] [0, 0] 1 2 3 4 (by decide)⟩

/-! ### Round-trip lemmas for the pdb model -/

theorem bytesBound_take (bs : List Nat) (n : Nat) (hb : ∀ b ∈ bs, b < 256) :
    ∀ b ∈ bs.take n, b < 256 := fun b hx => hb b (List.take_subset n bs hx)

theorem bytesBound_drop (bs : List Nat) (n : Nat) (hb : ∀ b ∈ bs, b < 256) :
    ∀ b ∈ bs.drop n, b < 256 := fun b hx => hb b (List.drop_subset n bs hx)

/-- `readLE` inverted by `leBytes`: the consumed bytes are reproduced. -/
theorem readLE_roundtrip (n : Nat) (bs rest : List Nat) (v : Nat)
    (h : readLE n bs = some (v, rest)) (hb : ∀ b ∈ bs, b < 256) :
    leBytes n v ++ rest = bs ∧ v < 256 ^ n ∧ rest = bs.drop n := by
  rw [readLE_eq] at h
  by_cases hl : n ≤ bs.length
  case neg => rw [if_neg hl] at h; cases h
  rw [if_pos hl] at h
  cases h
  have htake : (bs.take n).length = n := by rw [List.length_take]; omega
  have hbt := bytesBound_take bs n hb
  refine ⟨?_, ?_, rfl⟩
  · rw [leBytes_leVal n (bs.take n) htake hbt, List.take_append_drop]
  · have := leVal_lt (bs.take n) hbt
    rw [htake] at this
    exact this

/-- `readBytes` consumes exactly its result. -/
theorem readBytes_roundtrip (n : Nat) (bs rest taken : List Nat)
    (h : readBytes n bs = some (taken, rest)) :
    taken ++ rest = bs ∧ taken.length = n ∧ rest = bs.drop n := by
  rw [readBytes_eq] at h
  by_cases hl : n ≤ bs.length
  case neg => rw [if_neg hl] at h; cases h
  rw [if_pos hl] at h
  cases h
  exact ⟨List.take_append_drop n bs, by rw [List.length_take]; omega, rfl⟩

theorem wideUnits_roundtrip (bs : List Nat) (n : Nat) (hlen : bs.length = 2 * n)
    (hb : ∀ b ∈ bs, b < 256) :
    ((wideUnits bs).map (leBytes 2)).flatten = bs ∧ (wideUnits bs).length = n := by
  induction n generalizing bs with
  | zero =>
    have : bs = [] := List.eq_nil_of_length_eq_zero (by omega)
    subst this
    exact ⟨rfl, rfl⟩
  | succ m ih =>
    match bs with
    | [] => simp at hlen
    | [b] => simp at hlen; omega
    | b0 :: b1 :: rest =>
      have h0 : b0 < 256 := hb b0 (by simp)
      have h1 : b1 < 256 := hb b1 (by simp)
      have hrest : rest.length = 2 * m := by simp at hlen; omega
      obtain ⟨he, hn⟩ := ih rest hrest (fun x hx => hb x (by simp [hx]))
      constructor
      · show leBytes 2 (b0 + 256 * b1) ++ ((wideUnits rest).map (leBytes 2)).flatten
          = b0 :: b1 :: rest
        rw [he]
        have : leBytes 2 (b0 + 256 * b1) = [b0, b1] := by
          show (b0 + 256 * b1) % 256 :: (b0 + 256 * b1) / 256 % 256 :: [] = [b0, b1]
          have e0 : (b0 + 256 * b1) % 256 = b0 := by
            rw [Nat.add_mul_mod_self_left, Nat.mod_eq_of_lt h0]
          have e1 : (b0 + 256 * b1) / 256 = b1 := by omega
          rw [e0, e1, Nat.mod_eq_of_lt h1]
        rw [this]
        rfl
      · show (wideUnits rest).length + 1 = m + 1
        omega

/-- `dsDecode` inverted by `dsEncode`. -/
theorem dsDecode_roundtrip (bs rest : List Nat) (v : DeviceString)
    (h : dsDecode bs = some (v, rest)) (hb : ∀ b ∈ bs, b < 256) :
    dsEncode v ++ rest = bs := by
  match bs with
  | [] => cases h
  | t :: body =>
    have hbt : ∀ b ∈ body, b < 256 := fun b hx => hb b (by simp [hx])
    unfold dsDecode at h
    simp only [] at h
    by_cases h40 : t = 0x40
    · rw [if_pos h40] at h
      cases hle : readLE 2 body with
      | none => rw [hle] at h; cases h
      | some lr =>
        rw [hle] at h
        simp only [] at h
        cases hrb : readBytes lr.1 lr.2 with
        | none => rw [hrb] at h; cases h
        | some sr =>
          rw [hrb] at h
          simp only [] at h
          cases h
          obtain ⟨hcat, hvlt, hrest⟩ := readLE_roundtrip 2 body lr.2 lr.1 (by
            rw [hle]) hbt
          obtain ⟨hcat2, hlen2, _⟩ := readBytes_roundtrip lr.1 lr.2 sr.2 sr.1 (by rw [hrb])
          show 0x40 :: (leBytes 2 sr.1.length ++ sr.1) ++ sr.2 = t :: body
          rw [h40, hlen2]
          simp only [List.cons_append, List.append_assoc]
          rw [hcat2, hcat]
    · rw [if_neg h40] at h
      by_cases h90 : t = 0x90
      · rw [if_pos h90] at h
        cases hle : readLE 2 body with
        | none => rw [hle] at h; cases h
        | some lr =>
          rw [hle] at h
          simp only [] at h
          cases hrb : readBytes (2 * lr.1) lr.2 with
          | none => rw [hrb] at h; cases h
          | some sr =>
            rw [hrb] at h
            simp only [] at h
            cases h
            obtain ⟨hcat, hvlt, hrest⟩ := readLE_roundtrip 2 body lr.2 lr.1 (by rw [hle]) hbt
            obtain ⟨hcat2, hlen2, hrest2⟩ :=
              readBytes_roundtrip (2 * lr.1) lr.2 sr.2 sr.1 (by rw [hrb])
            have hbsr : ∀ b ∈ sr.1, b < 256 := by
              intro b hx
              have : b ∈ lr.2 := by rw [← hcat2]; exact List.mem_append_left _ hx
              have : b ∈ body := by rw [hrest] at this; exact List.drop_subset _ _ this
              exact hbt b this
            obtain ⟨hwflat, hwlen⟩ := wideUnits_roundtrip sr.1 lr.1 hlen2 hbsr
            show 0x90 :: (leBytes 2 (wideUnits sr.1).length ++
              ((wideUnits sr.1).map (leBytes 2)).flatten) ++ sr.2 = t :: body
            rw [h90, hwlen, hwflat]
            simp only [List.cons_append, List.append_assoc]
            rw [hcat2, hcat]
      · rw [if_neg h90] at h
        by_cases hsh : t < 0x40
        · rw [if_pos hsh] at h
          cases hrb : readBytes t body with
          | none => rw [hrb] at h; cases h
          | some sr =>
            rw [hrb] at h
            simp only [] at h
            cases h
            obtain ⟨hcat2, hlen2, _⟩ := readBytes_roundtrip t body sr.2 sr.1 (by rw [hrb])
            show sr.1.length :: sr.1 ++ sr.2 = t :: body
            rw [hlen2, List.cons_append, hcat2]
        · rw [if_neg hsh] at h
          cases h

set_option maxHeartbeats 1000000 in
theorem pageType_toNat_ofNat (v : Nat) : (PageType.ofNat v).toNat = v := by
  unfold PageType.ofNat
  split_ifs <;> simp only [PageType.toNat] <;> omega

/-- `rowDecode` inverted by `rowEncode`. -/
theorem rowDecode_roundtrip (pt : PageType) (bs rest : List Nat) (r : Row)
    (h : rowDecode pt bs = some (r, rest)) (hb : ∀ b ∈ bs, b < 256) :
    rowEncode r ++ rest = bs := by
  cases pt with
  | playlistTree =>
    unfold rowDecode at h
    cases hpr : readLE 4 bs with
    | none => rw [hpr] at h; cases h
    | some pr =>
      rw [hpr] at h
      simp only [] at h
      cases hsr : readLE 4 pr.2 with
      | none => rw [hsr] at h; cases h
      | some sr =>
        rw [hsr] at h
        simp only [] at h
        cases hir : readLE 4 sr.2 with
        | none => rw [hir] at h; cases h
        | some ir =>
          rw [hir] at h
          simp only [] at h
          cases hfr : readLE 4 ir.2 with
          | none => rw [hfr] at h; cases h
          | some fr =>
            rw [hfr] at h
            simp only [] at h
            cases hnr : dsDecode fr.2 with
            | none => rw [hnr] at h; cases h
            | some nr =>
              rw [hnr] at h
              simp only [] at h
              cases h
              obtain ⟨e1, _, d1⟩ := readLE_roundtrip 4 bs pr.2 pr.1 hpr hb
              have hb1 : ∀ b ∈ pr.2, b < 256 := by
                rw [d1]; exact bytesBound_drop bs 4 hb
              obtain ⟨e2, _, d2⟩ := readLE_roundtrip 4 pr.2 sr.2 sr.1 hsr hb1
              have hb2 : ∀ b ∈ sr.2, b < 256 := by
                rw [d2]; exact bytesBound_drop pr.2 4 hb1
              obtain ⟨e3, _, d3⟩ := readLE_roundtrip 4 sr.2 ir.2 ir.1 hir hb2
              have hb3 : ∀ b ∈ ir.2, b < 256 := by
                rw [d3]; exact bytesBound_drop sr.2 4 hb2
              obtain ⟨e4, _, d4⟩ := readLE_roundtrip 4 ir.2 fr.2 fr.1 hfr hb3
              have hb4 : ∀ b ∈ fr.2, b < 256 := by
                rw [d4]; exact bytesBound_drop ir.2 4 hb3
              have e5 := dsDecode_roundtrip fr.2 nr.2 nr.1 (by rw [hnr]) hb4
              show leBytes 4 pr.1 ++ leBytes 4 sr.1 ++ leBytes 4 ir.1 ++ leBytes 4 fr.1 ++
                dsEncode nr.1 ++ nr.2 = bs
              simp only [List.append_assoc]
              rw [e5, e4, e3, e2, e1]
  | unknown v => cases h
  | tracks => cases h
  | artists => cases h
  | albums => cases h
  | genres => cases h
  | labels => cases h
  | keys => cases h
  | colors => cases h
  | playlistEntries => cases h
  | artwork => cases h
  | history => cases h

/-- `readRows` inverted by encoding each row. -/
theorem readRows_roundtrip (pt : PageType) (n : Nat) (bs rest : List Nat)
    (rows : List Row) (h : readRows pt n bs = some (rows, rest))
    (hb : ∀ b ∈ bs, b < 256) :
    (rows.map rowEncode).flatten ++ rest = bs := by
  induction n generalizing bs rows rest with
  | zero =>
    unfold readRows at h
    cases h
    rfl
  | succ m ih =>
    unfold readRows at h
    cases hrr : rowDecode pt bs with
    | none => rw [hrr] at h; cases h
    | some rr =>
      rw [hrr] at h
      simp only [] at h
      cases hrest : readRows pt m rr.2 with
      | none => rw [hrest] at h; cases h
      | some rsrest =>
        rw [hrest] at h
        simp only [] at h
        cases h
        have e1 := rowDecode_roundtrip pt bs rr.2 rr.1 (by rw [hrr]) hb
        have hb1 : ∀ b ∈ rr.2, b < 256 := by
          intro b hx
          apply hb
          rw [← e1]
          exact List.mem_append_right _ hx
        have e2 := ih rr.2 rsrest.2 rsrest.1 (by rw [hrest]) hb1
        show (rowEncode rr.1 ++ (rsrest.1.map rowEncode).flatten) ++ rsrest.2 = bs
        rw [List.append_assoc, e2, e1]

/-- `readGroupsAux` inverted by encoding each group. -/
theorem readGroupsAux_roundtrip (pt : PageType) (fuel needed : Nat) (bs rest : List Nat)
    (gs : List RowGroup) (h : readGroupsAux pt fuel needed bs = some (gs, rest))
    (hb : ∀ b ∈ bs, b < 256) :
    (gs.map groupEncode).flatten ++ rest = bs := by
  induction fuel generalizing needed bs gs rest with
  | zero =>
    match needed, h with
    | 0, h =>
      unfold readGroupsAux at h
      cases h
      rfl
  | succ f ih =>
    match needed with
    | 0 =>
      unfold readGroupsAux at h
      cases h
      rfl
    | nd + 1 =>
      unfold readGroupsAux at h
      cases hmr : readLE 2 bs with
      | none => rw [hmr] at h; cases h
      | some mr =>
        rw [hmr] at h
        simp only [] at h
        by_cases hk : 0 < popcount16 mr.1 ∧ popcount16 mr.1 ≤ nd + 1
        case neg => rw [if_neg hk] at h; cases h
        rw [if_pos hk] at h
        cases hrr : readRows pt (popcount16 mr.1) mr.2 with
        | none => rw [hrr] at h; cases h
        | some rr =>
          rw [hrr] at h
          simp only [] at h
          cases hgr : readGroupsAux pt f (nd + 1 - popcount16 mr.1) rr.2 with
          | none => rw [hgr] at h; cases h
          | some gr =>
            rw [hgr] at h
            simp only [] at h
            cases h
            obtain ⟨e1, _, d1⟩ := readLE_roundtrip 2 bs mr.2 mr.1 hmr hb
            have hb1 : ∀ b ∈ mr.2, b < 256 := by
              rw [d1]; exact bytesBound_drop bs 2 hb
            have e2 := readRows_roundtrip pt (popcount16 mr.1) mr.2 rr.2 rr.1
              (by rw [hrr]) hb1
            have hb2 : ∀ b ∈ rr.2, b < 256 := by
              intro b hx
              apply hb1
              rw [← e2]
              exact List.mem_append_right _ hx
            have e3 := ih (nd + 1 - popcount16 mr.1) rr.2 gr.2 gr.1 (by rw [hgr]) hb2
            show (groupEncode ⟨mr.1, rr.1⟩ ++ (gr.1.map groupEncode).flatten) ++ gr.2 = bs
            show ((leBytes 2 mr.1 ++ (rr.1.map rowEncode).flatten) ++
              (gr.1.map groupEncode).flatten) ++ gr.2 = bs
            simp only [List.append_assoc]
            rw [e3, e2, e1]

/-- `readGroups` inverted by encoding each group. -/
theorem readGroups_roundtrip (pt : PageType) (rc : Nat) (bs rest : List Nat)
    (gs : List RowGroup) (h : readGroups pt rc bs = some (gs, rest))
    (hb : ∀ b ∈ bs, b < 256) :
    (gs.map groupEncode).flatten ++ rest = bs := by
  unfold readGroups at h
  by_cases h0 : rc = 0
  · rw [if_pos h0] at h
    cases hmr : readLE 2 bs with
    | none => rw [hmr] at h; cases h
    | some mr =>
      rw [hmr] at h
      simp only [] at h
      by_cases hp : popcount16 mr.1 = 0
      case neg => rw [if_neg hp] at h; cases h
      rw [if_pos hp] at h
      cases h
      obtain ⟨e1, _, _⟩ := readLE_roundtrip 2 bs mr.2 mr.1 hmr hb
      show (groupEncode ⟨mr.1, []⟩ ++ []) ++ mr.2 = bs
      show ((leBytes 2 mr.1 ++ []) ++ []) ++ mr.2 = bs
      simp only [List.append_nil]
      exact e1
  · rw [if_neg h0] at h
    exact readGroupsAux_roundtrip pt rc rc bs rest gs h hb

/-- `pageDecode` inverted by `pageEncode`. -/
theorem pageDecode_roundtrip (ps : Nat) (bs : List Nat) (p : Page)
    (h : pageDecode ps bs = some p) (hb : ∀ b ∈ bs, b < 256) :
    pageEncode p = bs ∧ bs.length = ps := by
  unfold pageDecode at h
  by_cases hne : bs.length ≠ ps
  case pos => rw [if_pos hne] at h; cases h
  rw [if_neg hne] at h
  cases hixr : readLE 4 bs with
  | none => rw [hixr] at h; cases h
  | some ixr =>
    rw [hixr] at h
    simp only [] at h
    cases hptr : readLE 4 ixr.2 with
    | none => rw [hptr] at h; cases h
    | some ptr =>
      rw [hptr] at h
      simp only [] at h
      cases hrcr : readLE 2 ptr.2 with
      | none => rw [hrcr] at h; cases h
      | some rcr =>
        rw [hrcr] at h
        simp only [] at h
        cases hfsr : readLE 2 rcr.2 with
        | none => rw [hfsr] at h; cases h
        | some fsr =>
          rw [hfsr] at h
          simp only [] at h
          cases husr : readLE 2 fsr.2 with
          | none => rw [husr] at h; cases h
          | some usr =>
            rw [husr] at h
            simp only [] at h
            cases hnpr : readLE 4 usr.2 with
            | none => rw [hnpr] at h; cases h
            | some npr =>
              rw [hnpr] at h
              simp only [] at h
              cases hfar : readBytes fsr.1 npr.2 with
              | none => rw [hfar] at h; cases h
              | some far =>
                rw [hfar] at h
                simp only [] at h
                by_cases hus : usr.1 ≠ far.2.length
                case pos => rw [if_pos hus] at h; cases h
                rw [if_neg hus] at h
                cases hgsr : readGroups (PageType.ofNat ptr.1) rcr.1 far.2 with
                | none => rw [hgsr] at h; cases h
                | some gsr =>
                  rw [hgsr] at h
                  simp only [] at h
                  by_cases hrest : gsr.2 = []
                  case neg => rw [if_neg hrest] at h; cases h
                  rw [if_pos hrest] at h
                  cases h
                  obtain ⟨e1, _, d1⟩ := readLE_roundtrip 4 bs ixr.2 ixr.1 hixr hb
                  have hb1 : ∀ b ∈ ixr.2, b < 256 := by
                    rw [d1]; exact bytesBound_drop bs 4 hb
                  obtain ⟨e2, _, d2⟩ := readLE_roundtrip 4 ixr.2 ptr.2 ptr.1 hptr hb1
                  have hb2 : ∀ b ∈ ptr.2, b < 256 := by
                    rw [d2]; exact bytesBound_drop ixr.2 4 hb1
                  obtain ⟨e3, _, d3⟩ := readLE_roundtrip 2 ptr.2 rcr.2 rcr.1 hrcr hb2
                  have hb3 : ∀ b ∈ rcr.2, b < 256 := by
                    rw [d3]; exact bytesBound_drop ptr.2 2 hb2
                  obtain ⟨e4, _, d4⟩ := readLE_roundtrip 2 rcr.2 fsr.2 fsr.1 hfsr hb3
                  have hb4 : ∀ b ∈ fsr.2, b < 256 := by
                    rw [d4]; exact bytesBound_drop rcr.2 2 hb3
                  obtain ⟨e5, _, d5⟩ := readLE_roundtrip 2 fsr.2 usr.2 usr.1 husr hb4
                  have hb5 : ∀ b ∈ usr.2, b < 256 := by
                    rw [d5]; exact bytesBound_drop fsr.2 2 hb4
                  obtain ⟨e6, _, d6⟩ := readLE_roundtrip 4 usr.2 npr.2 npr.1 hnpr hb5
                  have hb6 : ∀ b ∈ npr.2, b < 256 := by
                    rw [d6]; exact bytesBound_drop usr.2 4 hb5
                  obtain ⟨e7, _, d7⟩ := readBytes_roundtrip fsr.1 npr.2 far.2 far.1 hfar
                  have hb7 : ∀ b ∈ far.2, b < 256 := by
                    rw [d7]; exact bytesBound_drop npr.2 fsr.1 hb6
                  have e8 := readGroups_roundtrip (PageType.ofNat ptr.1) rcr.1 far.2
                    gsr.2 gsr.1 (by rw [hgsr]) hb7
                  rw [hrest, List.append_nil] at e8
                  refine ⟨?_, by omega⟩
                  show leBytes 4 ixr.1 ++ leBytes 4 (PageType.ofNat ptr.1).toNat ++
                    leBytes 2 rcr.1 ++ leBytes 2 fsr.1 ++ leBytes 2 usr.1 ++
                    leBytes 4 npr.1 ++ far.1 ++ (gsr.1.map groupEncode).flatten = bs
                  rw [pageType_toNat_ofNat]
                  simp only [List.append_assoc]
                  rw [e8, e7, e6, e5, e4, e3, e2, e1]

/-- `readTables` inverted by `tableEncode`, with the table count. -/
theorem readTables_roundtrip (n : Nat) (bs rest : List Nat) (ts : List Table)
    (h : readTables n bs = some (ts, rest)) (hb : ∀ b ∈ bs, b < 256) :
    (ts.map tableEncode).flatten ++ rest = bs ∧ ts.length = n := by
  induction n generalizing bs ts rest with
  | zero =>
    unfold readTables at h
    cases h
    exact ⟨rfl, rfl⟩
  | succ m ih =>
    unfold readTables at h
    cases hptr : readLE 4 bs with
    | none => rw [hptr] at h; cases h
    | some ptr =>
      rw [hptr] at h
      simp only [] at h
      cases hfpr : readLE 4 ptr.2 with
      | none => rw [hfpr] at h; cases h
      | some fpr =>
        rw [hfpr] at h
        simp only [] at h
        cases hlpr : readLE 4 fpr.2 with
        | none => rw [hlpr] at h; cases h
        | some lpr =>
          rw [hlpr] at h
          simp only [] at h
          cases hrest : readTables m lpr.2 with
          | none => rw [hrest] at h; cases h
          | some tsr =>
            rw [hrest] at h
            simp only [] at h
            cases h
            obtain ⟨e1, _, d1⟩ := readLE_roundtrip 4 bs ptr.2 ptr.1 hptr hb
            have hb1 : ∀ b ∈ ptr.2, b < 256 := by
              rw [d1]; exact bytesBound_drop bs 4 hb
            obtain ⟨e2, _, d2⟩ := readLE_roundtrip 4 ptr.2 fpr.2 fpr.1 hfpr hb1
            have hb2 : ∀ b ∈ fpr.2, b < 256 := by
              rw [d2]; exact bytesBound_drop ptr.2 4 hb1
            obtain ⟨e3, _, d3⟩ := readLE_roundtrip 4 fpr.2 lpr.2 lpr.1 hlpr hb2
            have hb3 : ∀ b ∈ lpr.2, b < 256 := by
              rw [d3]; exact bytesBound_drop fpr.2 4 hb2
            obtain ⟨e4, hlen4⟩ := ih lpr.2 tsr.2 tsr.1 (by rw [hrest]) hb3
            constructor
            · show (tableEncode ⟨PageType.ofNat ptr.1, fpr.1, lpr.1⟩ ++
                (tsr.1.map tableEncode).flatten) ++ tsr.2 = bs
              show ((leBytes 4 (PageType.ofNat ptr.1).toNat ++ leBytes 4 fpr.1 ++
                leBytes 4 lpr.1) ++ (tsr.1.map tableEncode).flatten) ++ tsr.2 = bs
              rw [pageType_toNat_ofNat]
              simp only [List.append_assoc]
              rw [e4, e3, e2, e1]
            · show tsr.1.length + 1 = m + 1
              omega

/-- `headerDecode` inverted by `headerEncode`, with the decoded
`page_size`. -/
theorem headerDecode_roundtrip (bs : List Nat) (hdr : Header)
    (h : headerDecode bs = some hdr) (hb : ∀ b ∈ bs, b < 256) :
    headerEncode hdr = bs ∧ hdr.page_size = leVal (bs.take 4) := by
  unfold headerDecode at h
  cases hpsr : readLE 4 bs with
  | none => rw [hpsr] at h; cases h
  | some psr =>
    rw [hpsr] at h
    simp only [] at h
    cases hntr : readLE 4 psr.2 with
    | none => rw [hntr] at h; cases h
    | some ntr =>
      rw [hntr] at h
      simp only [] at h
      cases htr : readTables ntr.1 ntr.2 with
      | none => rw [htr] at h; cases h
      | some tr =>
        rw [htr] at h
        simp only [] at h
        cases h
        obtain ⟨e1, _, d1⟩ := readLE_roundtrip 4 bs psr.2 psr.1 hpsr hb
        have hb1 : ∀ b ∈ psr.2, b < 256 := by
          rw [d1]; exact bytesBound_drop bs 4 hb
        obtain ⟨e2, _, d2⟩ := readLE_roundtrip 4 psr.2 ntr.2 ntr.1 hntr hb1
        have hb2 : ∀ b ∈ ntr.2, b < 256 := by
          rw [d2]; exact bytesBound_drop psr.2 4 hb1
        obtain ⟨e3, hlen3⟩ := readTables_roundtrip ntr.1 ntr.2 tr.2 tr.1 (by rw [htr]) hb2
        constructor
        · show leBytes 4 psr.1 ++ leBytes 4 tr.1.length ++
            (tr.1.map tableEncode).flatten ++ tr.2 = bs
          rw [hlen3]
          simp only [List.append_assoc]
          rw [e3, e2, e1]
        · show psr.1 = leVal (bs.take 4)
          rw [readLE_eq] at hpsr
          by_cases hl : 4 ≤ bs.length
          case neg => rw [if_neg hl] at hpsr; cases hpsr
          rw [if_pos hl] at hpsr
          cases hpsr
          rfl

/-- What a successful `readHeader` guarantees. -/
theorem readHeader_spec (F : List Nat) (hdr : Header)
    (h : readHeader F = some hdr) (hb : ∀ b ∈ F, b < 256) :
    headerEncode hdr = F.take hdr.page_size ∧ hdr.page_size = leVal (F.take 4) ∧
      18 ≤ hdr.page_size ∧ 4 ≤ F.length := by
  unfold readHeader at h
  cases hpsr : readLE 4 F with
  | none => rw [hpsr] at h; cases h
  | some psr =>
    rw [hpsr] at h
    simp only [] at h
    by_cases hlt : psr.1 < 18
    case pos => rw [if_pos hlt] at h; cases h
    rw [if_neg hlt] at h
    obtain ⟨he, hps⟩ := headerDecode_roundtrip (F.take psr.1) hdr h
      (bytesBound_take F psr.1 hb)
    rw [readLE_eq] at hpsr
    by_cases hl : 4 ≤ F.length
    case neg => rw [if_neg hl] at hpsr; cases hpsr
    rw [if_pos hl] at hpsr
    cases hpsr
    have htt : (F.take (leVal (F.take 4))).take 4 = F.take 4 := by
      rw [List.take_take]
      have : min 4 (leVal (F.take 4)) = 4 := by omega
      rw [this]
    rw [htt] at hps
    exact ⟨by rw [hps, he], hps, by omega, hl⟩

/-- Every page yielded by `readChain` decodes from the block named by its own
`page_index`. -/
theorem readChain_mem (F : List Nat) (ps : Nat) (pt : PageType) (fuel idx last : Nat)
    (pages : List Page) (h : readChain F ps pt fuel idx last = some pages) :
    ∀ p ∈ pages, pageDecode ps (pageSlice F ps p.page_index) = some p := by
  induction fuel generalizing idx pages with
  | zero => cases h
  | succ f ih =>
    unfold readChain at h
    cases hpd : pageDecode ps (pageSlice F ps idx) with
    | none => rw [hpd] at h; cases h
    | some p0 =>
      rw [hpd] at h
      simp only [] at h
      by_cases hix : p0.page_index ≠ idx
      case pos => rw [if_pos hix] at h; cases h
      rw [if_neg hix] at h
      by_cases hpt : p0.page_type ≠ pt
      case pos => rw [if_pos hpt] at h; cases h
      rw [if_neg hpt] at h
      push_neg at hix
      by_cases hlast : idx = last
      · rw [if_pos hlast] at h
        cases h
        intro p hp
        rw [List.mem_singleton] at hp
        subst hp
        rw [hix]
        exact hpd
      · rw [if_neg hlast] at h
        cases hrc : readChain F ps pt f p0.next_page last with
        | none => rw [hrc] at h; cases h
        | some rest =>
          rw [hrc] at h
          simp only [] at h
          cases h
          intro p hp
          rw [List.mem_cons] at hp
          cases hp with
          | inl hp0 =>
            subst hp0
            rw [hix]
            exact hpd
          | inr hrest => exact ih p0.next_page rest hrc p hrest

/-- Every page yielded by `readChains` decodes from the block named by its
own `page_index`. -/
theorem readChains_mem (F : List Nat) (h : Header) (ts : List Table)
    (pages : List Page) (hc : readChains F h ts = some pages) :
    ∀ p ∈ pages, pageDecode h.page_size (pageSlice F h.page_size p.page_index) = some p := by
  induction ts generalizing pages with
  | nil =>
    unfold readChains at hc
    cases hc
    intro p hp
    cases hp
  | cons t ts ih =>
    unfold readChains at hc
    cases hrp : readPages F h t with
    | none => rw [hrp] at hc; cases hc
    | some pgs =>
      rw [hrp] at hc
      simp only [] at hc
      cases hrest : readChains F h ts with
      | none => rw [hrest] at hc; cases hc
      | some rest =>
        rw [hrest] at hc
        simp only [] at hc
        cases hc
        intro p hp
        rw [List.mem_append] at hp
        cases hp with
        | inl h1 => exact readChain_mem F h.page_size t.page_type _ _ _ pgs hrp p h1
        | inr h2 => exact ih rest hrest p h2

/-- Concatenating consecutive page blocks reproduces the corresponding region
of the file. -/
theorem slices_flatten (F : List Nat) (ps : Nat) (cnt : Nat) : ∀ (start : Nat),
    ((List.range' start cnt).map (pageSlice F ps)).flatten =
      (F.drop (start * ps)).take (cnt * ps) := by
  induction cnt with
  | zero => intro start; simp
  | succ m ih =>
    intro start
    rw [List.range'_succ]
    show pageSlice F ps start ++ ((List.range' (start + 1) m).map (pageSlice F ps)).flatten
      = (F.drop (start * ps)).take ((m + 1) * ps)
    rw [ih (start + 1)]
    unfold pageSlice
    have h1 : (m + 1) * ps = ps + m * ps := by ring
    rw [h1, List.take_add]
    congr 1
    rw [List.drop_drop]
    congr 1
    ring_nf

/-- C1: For every PDB file `F` that the codec decodes without error,
re-encoding the decoded structure — the header followed by every table's
pages, row-group bitmasks and present rows in read order, exactly as the
`reexport-pdb` command writes them — produces bytes equal to `F`
byte-for-byte. -/
theorem pdb_roundtrip (F : List Nat) (f : PdbFile)
    (hb : ∀ b ∈ F, b < 256) (h : pdbDecode F = some f) :
    pdbEncode f = F := by
  unfold pdbDecode at h
  cases hrh : readHeader F with
  | none => rw [hrh] at h; cases h
  | some hdr =>
    rw [hrh] at h
    simp only [] at h
    by_cases hmod : F.length % hdr.page_size ≠ 0
    case pos => rw [if_pos hmod] at h; cases h
    rw [if_neg hmod] at h
    cases hrc : readChains F hdr hdr.tables with
    | none => rw [hrc] at h; cases h
    | some pages =>
      rw [hrc] at h
      simp only [] at h
      by_cases hidx : pages.map (fun p => p.page_index) =
        List.range' 1 (F.length / hdr.page_size - 1)
      case neg => rw [if_neg hidx] at h; cases h
      rw [if_pos hidx] at h
      cases h
      obtain ⟨hhe, hps, hps18, hF4⟩ := readHeader_spec F hdr hrh hb
      have hdvd : F.length = (F.length / hdr.page_size) * hdr.page_size :=
        (Nat.div_mul_cancel (Nat.dvd_of_mod_eq_zero (by omega))).symm
      have hmod0 : F.length % hdr.page_size = 0 := not_ne_iff.mp hmod
      have hge : hdr.page_size ≤ F.length := by
        by_contra hlt
        push_neg at hlt
        rw [Nat.mod_eq_of_lt hlt] at hmod0
        omega
      have hq1 : 1 ≤ F.length / hdr.page_size := (Nat.one_le_div_iff (by omega)).mpr hge
      have hNps : F.length = (F.length / hdr.page_size - 1 + 1) * hdr.page_size := by
        have : F.length / hdr.page_size - 1 + 1 = F.length / hdr.page_size := by omega
        rw [this]
        exact hdvd
      have hpe : ∀ p ∈ pages, pageEncode p = pageSlice F hdr.page_size p.page_index := by
        intro p hp
        have hd := readChains_mem F hdr hdr.tables pages hrc p hp
        have hbs : ∀ b ∈ pageSlice F hdr.page_size p.page_index, b < 256 := by
          intro b hx
          unfold pageSlice at hx
          exact hb b (List.drop_subset _ _ (List.take_subset _ _ hx))
        exact (pageDecode_roundtrip hdr.page_size _ p hd hbs).1
      have hflat : (pages.map pageEncode).flatten = F.drop hdr.page_size := by
        rw [List.map_congr_left hpe]
        rw [show pages.map (fun p => pageSlice F hdr.page_size p.page_index) =
          (pages.map (fun p => p.page_index)).map (pageSlice F hdr.page_size) from by
            rw [List.map_map]; rfl]
        rw [hidx, slices_flatten F hdr.page_size _ 1, Nat.one_mul]
        have hdl : (F.drop hdr.page_size).length =
            (F.length / hdr.page_size - 1) * hdr.page_size := by
          rw [List.length_drop]
          have h2 : F.length = (F.length / hdr.page_size - 1) * hdr.page_size +
              hdr.page_size := by
            conv_lhs => rw [hNps]
            ring
          omega
        exact List.take_of_length_le (le_of_eq hdl)
      show headerEncode hdr ++ (pages.map pageEncode).flatten = F
      rw [hflat, hhe, List.take_append_drop]

/-- Witness for C1: a concrete 40-byte file (20-byte header page naming one
playlist-tree table, one empty page) decodes and re-encodes to itself. -/
theorem pdb_roundtrip_w :
    pdbEncode
      { header := { page_size := 20,
                    tables := [{ page_type := PageType.playlistTree,
                                 first_page := 1, last_page := 1 }],
                    padding := [] },
        pages := [{ page_index := 1, page_type := PageType.playlistTree,
                    row_count := 0, free_size := 0, used_size := 2, next_page := 0,
                    free_area := [], row_groups := [⟨0, []⟩] }] } =
      [20, 0, 0, 0, 1, 0, 0, 0, 7, 0, 0, 0, 1, 0, 0, 0, 1, 0, 0, 0,
       1, 0, 0, 0, 7, 0, 0, 0, 0, 0, 0, 0, 2, 0, 0, 0, 0, 0, 0, 0] :=
  pdb_roundtrip
    [20, 0, 0, 0, 1, 0, 0, 0, 7, 0, 0, 0, 1, 0, 0, 0, 1, 0, 0, 0,
     1, 0, 0, 0, 7, 0, 0, 0, 0, 0, 0, 0, 2, 0, 0, 0, 0, 0, 0, 0]
    { header := { page_size := 20,
                  tables := [{ page_type := PageType.playlistTree,
                               first_page := 1, last_page := 1 }],
                  padding := [] },
      pages := [{ page_index := 1, page_type := PageType.playlistTree,
                  row_count := 0, free_size := 0, used_size := 2, next_page := 0,
                  free_area := [], row_groups := [⟨0, []⟩] }] }
    (by decide) (by decide)

/-- Walking slots in order with a bitmask pairs each set slot with the next
packed row, in order, when the popcount matches the row count. -/
theorem presentRowsOver_spec (mask : Nat) (ss : List Nat) (rows : List Row)
    (h : (ss.filter (fun s => mask.testBit s)).length = rows.length) :
    (presentRowsOver mask ss rows).map Prod.fst = ss.filter (fun s => mask.testBit s) ∧
    (presentRowsOver mask ss rows).map Prod.snd = rows := by
  induction ss generalizing rows with
  | nil =>
    have : rows = [] := by
      simp at h
      exact List.eq_nil_of_length_eq_zero h.symm
    subst this
    exact ⟨rfl, rfl⟩
  | cons s ss ih =>
    by_cases hbit : mask.testBit s
    · rw [List.filter_cons_of_pos (by simp [hbit])] at h ⊢
      cases rows with
      | nil => simp at h
      | cons r rs =>
        have hrec := ih rs (by simpa using h)
        unfold presentRowsOver
        rw [if_pos hbit]
        simp only [List.map_cons]
        exact ⟨by rw [hrec.1], by rw [hrec.2]⟩
    · rw [List.filter_cons_of_neg (by simp [hbit])] at h ⊢
      have hrec := ih rows h
      unfold presentRowsOver
      rw [if_neg (by simp [hbit])]
      exact hrec

/-- C5: For every row-group whose packed rows fill its presence bitmask,
`present_rows()` yields exactly the rows whose bitmask bit is set, paired with
their slots in ascending slot order, and yields nothing for absent slots. -/
theorem present_rows_semantics (g : RowGroup)
    (h : (setBits16 g.row_presence_flags).length = g.rows.length) :
    (g.presentRows.map Prod.fst = setBits16 g.row_presence_flags ∧
      g.presentRows.map Prod.snd = g.rows) ∧
    List.Pairwise (· < ·) (setBits16 g.row_presence_flags) := by
  constructor
  · exact presentRowsOver_spec g.row_presence_flags (List.range 16) g.rows h
  · exact List.Pairwise.filter _ (List.sorted_lt_range 16)

/-- Witness for C5: the bitmask `0b101` with two packed rows yields exactly
those rows at slots 0 and 2, in that order. -/
theorem present_rows_semantics_w :
    ((RowGroup.presentRows
        ⟨5, [Row.playlistTreeNode
               { parent_id := 0, sort_order := 0, id := 10, raw_is_folder := 0,
                 name := .short [] },
             Row.playlistTreeNode
               { parent_id := 0, sort_order := 0, id := 20, raw_is_folder := 0,
                 name := .short [] }]⟩).map Prod.fst = setBits16 5 ∧
      (RowGroup.presentRows
        ⟨5, [Row.playlistTreeNode
               { parent_id := 0, sort_order := 0, id := 10, raw_is_folder := 0,
                 name := .short [] },
             Row.playlistTreeNode
               { parent_id := 0, sort_order := 0, id := 20, raw_is_folder := 0,
                 name := .short [] }]⟩).map Prod.snd =
        [Row.playlistTreeNode
           { parent_id := 0, sort_order := 0, id := 10, raw_is_folder := 0,
             name := .short [] },
         Row.playlistTreeNode
           { parent_id := 0, sort_order := 0, id := 20, raw_is_folder := 0,
             name := .short [] }]) ∧
    List.Pairwise (· < ·) (setBits16 5) :=
  present_rows_semantics
    ⟨5, [Row.playlistTreeNode
           { parent_id := 0, sort_order := 0, id := 10, raw_is_folder := 0,
             name := .short [] },
         Row.playlistTreeNode
           { parent_id := 0, sort_order := 0, id := 20, raw_is_folder := 0,
             name := .short [] }]⟩ (by decide)

/-- Chain traversal is deterministic: the fuel does not affect a successful
result. -/
theorem readChain_unique (F : List Nat) (ps : Nat) (pt : PageType) :
    ∀ f1 f2 idx last xs ys, readChain F ps pt f1 idx last = some xs →
      readChain F ps pt f2 idx last = some ys → xs = ys := by
  intro f1
  induction f1 with
  | zero => intro f2 idx last xs ys h1; cases h1
  | succ f ih =>
    intro f2 idx last xs ys h1 h2
    cases f2 with
    | zero => cases h2
    | succ g =>
      unfold readChain at h1 h2
      cases hpd : pageDecode ps (pageSlice F ps idx) with
      | none => rw [hpd] at h1; cases h1
      | some p =>
        rw [hpd] at h1 h2
        simp only [] at h1 h2
        by_cases hix : p.page_index ≠ idx
        case pos => rw [if_pos hix] at h1; cases h1
        rw [if_neg hix] at h1 h2
        by_cases hpt : p.page_type ≠ pt
        case pos => rw [if_pos hpt] at h1; cases h1
        rw [if_neg hpt] at h1 h2
        by_cases hlast : idx = last
        · rw [if_pos hlast] at h1 h2
          cases h1
          cases h2
          rfl
        · rw [if_neg hlast] at h1 h2
          cases hr1 : readChain F ps pt f p.next_page last with
          | none => rw [hr1] at h1; cases h1
          | some t1 =>
            rw [hr1] at h1
            simp only [] at h1
            cases hr2 : readChain F ps pt g p.next_page last with
            | none => rw [hr2] at h2; cases h2
            | some t2 =>
              rw [hr2] at h2
              simp only [] at h2
              cases h1
              cases h2
              rw [ih g p.next_page last t1 t2 hr1 hr2]

/-- Every suffix of a successful chain traversal is itself a successful
traversal starting at the page index at that position. -/
theorem readChain_suffix (F : List Nat) (ps : Nat) (pt : PageType) :
    ∀ fuel idx last pages, readChain F ps pt fuel idx last = some pages →
      ∀ j, (hj : j < pages.length) →
        ∃ f2, readChain F ps pt f2 (pages[j].page_index) last = some (pages.drop j) := by
  intro fuel
  induction fuel with
  | zero => intro idx last pages h; cases h
  | succ f ih =>
    intro idx last pages h j hj
    have horig := h
    unfold readChain at h
    cases hpd : pageDecode ps (pageSlice F ps idx) with
    | none => rw [hpd] at h; cases h
    | some p =>
      rw [hpd] at h
      simp only [] at h
      by_cases hix : p.page_index ≠ idx
      case pos => rw [if_pos hix] at h; cases h
      rw [if_neg hix] at h
      push_neg at hix
      by_cases hptc : p.page_type ≠ pt
      case pos => rw [if_pos hptc] at h; cases h
      rw [if_neg hptc] at h
      by_cases hlast : idx = last
      · rw [if_pos hlast] at h
        cases h
        match j, hj with
        | 0, _ =>
          refine ⟨f + 1, ?_⟩
          show readChain F ps pt (f + 1) p.page_index last = some [p]
          rw [hix]
          exact horig
      · rw [if_neg hlast] at h
        cases hrc : readChain F ps pt f p.next_page last with
        | none => rw [hrc] at h; cases h
        | some rest =>
          rw [hrc] at h
          simp only [] at h
          cases h
          match j, hj with
          | 0, _ =>
            refine ⟨f + 1, ?_⟩
            show readChain F ps pt (f + 1) p.page_index last = some (p :: rest)
            rw [hix]
            exact horig
          | j2 + 1, hj2 =>
            have hj3 : j2 < rest.length := by
              have := hj2
              simp at this
              omega
            obtain ⟨f2, hf2⟩ := ih p.next_page last rest hrc j2 hj3
            exact ⟨f2, hf2⟩

/-- A successful chain traversal visits pairwise distinct page indices. -/
theorem readChain_nodup (F : List Nat) (ps : Nat) (pt : PageType)
    (fuel idx last : Nat) (pages : List Page)
    (h : readChain F ps pt fuel idx last = some pages) :
    (pages.map (fun p => p.page_index)).Nodup := by
  have hinj : ∀ a b, (ha : a < pages.length) → (hb : b < pages.length) →
      pages[a].page_index = pages[b].page_index → a = b := by
    intro a b ha hb heq
    obtain ⟨fa, hfa⟩ := readChain_suffix F ps pt fuel idx last pages h a ha
    obtain ⟨fb, hfb⟩ := readChain_suffix F ps pt fuel idx last pages h b hb
    rw [heq] at hfa
    have hdrop := readChain_unique F ps pt fa fb (pages[b].page_index) last _ _ hfa hfb
    have hlen := congrArg List.length hdrop
    simp only [List.length_drop] at hlen
    omega
  rw [List.nodup_iff_injective_getElem]
  intro i j hij
  simp only [List.getElem_map] at hij
  have hi : i.1 < pages.length := by
    have := i.2
    simpa using this
  have hj : j.1 < pages.length := by
    have := j.2
    simpa using this
  exact Fin.ext (hinj i.1 j.1 hi hj hij)

/-- A successful chain traversal starts at `first` and ends at `last`. -/
theorem readChain_first_last (F : List Nat) (ps : Nat) (pt : PageType) :
    ∀ fuel idx last pages, readChain F ps pt fuel idx last = some pages →
      (pages.map (fun p => p.page_index)).head? = some idx ∧
      (pages.map (fun p => p.page_index)).getLast? = some last := by
  intro fuel
  induction fuel with
  | zero => intro idx last pages h; cases h
  | succ f ih =>
    intro idx last pages h
    unfold readChain at h
    cases hpd : pageDecode ps (pageSlice F ps idx) with
    | none => rw [hpd] at h; cases h
    | some p =>
      rw [hpd] at h
      simp only [] at h
      by_cases hix : p.page_index ≠ idx
      case pos => rw [if_pos hix] at h; cases h
      rw [if_neg hix] at h
      push_neg at hix
      by_cases hptc : p.page_type ≠ pt
      case pos => rw [if_pos hptc] at h; cases h
      rw [if_neg hptc] at h
      by_cases hlast : idx = last
      · rw [if_pos hlast] at h
        cases h
        subst hlast
        exact ⟨by simp [hix], by simp [hix]⟩
      · rw [if_neg hlast] at h
        cases hrc : readChain F ps pt f p.next_page last with
        | none => rw [hrc] at h; cases h
        | some rest =>
          rw [hrc] at h
          simp only [] at h
          cases h
          obtain ⟨hh, hl⟩ := ih p.next_page last rest hrc
          have hne : rest ≠ [] := by
            intro hnil
            rw [hnil] at hh
            cases hh
          constructor
          · simp [hix]
          · rw [List.map_cons, List.getLast?_cons, hl]
            rfl

/-- Every page of a successful chain traversal carries the owning table's
page-type. -/
theorem readChain_types (F : List Nat) (ps : Nat) (pt : PageType) :
    ∀ fuel idx last pages, readChain F ps pt fuel idx last = some pages →
      ∀ p ∈ pages, p.page_type = pt := by
  intro fuel
  induction fuel with
  | zero => intro idx last pages h; cases h
  | succ f ih =>
    intro idx last pages h
    unfold readChain at h
    cases hpd : pageDecode ps (pageSlice F ps idx) with
    | none => rw [hpd] at h; cases h
    | some p =>
      rw [hpd] at h
      simp only [] at h
      by_cases hix : p.page_index ≠ idx
      case pos => rw [if_pos hix] at h; cases h
      rw [if_neg hix] at h
      by_cases hptc : p.page_type ≠ pt
      case pos => rw [if_pos hptc] at h; cases h
      rw [if_neg hptc] at h
      push_neg at hptc
      by_cases hlast : idx = last
      · rw [if_pos hlast] at h
        cases h
        intro q hq
        rw [List.mem_singleton] at hq
        subst hq
        exact hptc
      · rw [if_neg hlast] at h
        cases hrc : readChain F ps pt f p.next_page last with
        | none => rw [hrc] at h; cases h
        | some rest =>
          rw [hrc] at h
          simp only [] at h
          cases h
          intro q hq
          rw [List.mem_cons] at hq
          cases hq with
          | inl h1 => subst h1; exact hptc
          | inr h2 => exact ih p.next_page last rest hrc q h2

/-- C6: Filtering the table directory by a page-type returns exactly the
tables whose stored `page_type` equals it, and following a table's page chain
via `read_pages` from `first_page` to `last_page` visits each page index
exactly once — no repeats (the indices are pairwise distinct), no gaps (the
traversal is the chain itself: it starts at `first_page`, ends at
`last_page`, and every visited page carries the table's page-type, in on-disk
chain order). -/
theorem table_filter_and_chain_traversal :
    (∀ (h : Header) (pt : PageType) (t : Table),
      t ∈ h.tables.filter (fun tb => tb.page_type == pt) ↔
        t ∈ h.tables ∧ t.page_type = pt) ∧
    (∀ (F : List Nat) (ps : Nat) (pt : PageType) (fuel firstPage lastPage : Nat)
        (pages : List Page),
      readChain F ps pt fuel firstPage lastPage = some pages →
      (pages.map (fun p => p.page_index)).Nodup ∧
      (pages.map (fun p => p.page_index)).head? = some firstPage ∧
      (pages.map (fun p => p.page_index)).getLast? = some lastPage ∧
      ∀ p ∈ pages, p.page_type = pt) := by
  constructor
  · intro h pt t
    rw [List.mem_filter]
    simp
  · intro F ps pt fuel firstPage lastPage pages hc
    obtain ⟨hh, hl⟩ := readChain_first_last F ps pt fuel firstPage lastPage pages hc
    exact ⟨readChain_nodup F ps pt fuel firstPage lastPage pages hc, hh, hl,
      readChain_types F ps pt fuel firstPage lastPage pages hc⟩

/-- Witness for C6 on the concrete 40-byte file: the single playlist-tree
table is returned by the filter, and its one-page chain visits index 1
exactly once. -/
theorem table_filter_and_chain_traversal_w :
    (({ page_type := PageType.playlistTree, first_page := 1, last_page := 1 } : Table) ∈
      List.filter (fun tb => tb.page_type == PageType.playlistTree)
        ({ page_size := 20,
           tables := [{ page_type := PageType.playlistTree, first_page := 1,
                        last_page := 1 }],
           padding := [] } : Header).tables ↔
      ({ page_type := PageType.playlistTree, first_page := 1, last_page := 1 } : Table) ∈
        ({ page_size := 20,
           tables := [{ page_type := PageType.playlistTree, first_page := 1,
                        last_page := 1 }],
           padding := [] } : Header).tables ∧
        ({ page_type := PageType.playlistTree, first_page := 1,
           last_page := 1 } : Table).page_type = PageType.playlistTree) ∧
    (([{ page_index := 1, page_type := PageType.playlistTree, row_count := 0,
         free_size := 0, used_size := 2, next_page := 0, free_area := [],
         row_groups := [⟨0, []⟩] }] : List Page).map (fun p => p.page_index)).Nodup := by
  constructor
  · exact table_filter_and_chain_traversal.1
      { page_size := 20,
        tables := [{ page_type := PageType.playlistTree, first_page := 1, last_page := 1 }],
        padding := [] } PageType.playlistTree
      { page_type := PageType.playlistTree, first_page := 1, last_page := 1 }
  · exact (table_filter_and_chain_traversal.2
      [20, 0, 0, 0, 1, 0, 0, 0, 7, 0, 0, 0, 1, 0, 0, 0, 1, 0, 0, 0,
       1, 0, 0, 0, 7, 0, 0, 0, 0, 0, 0, 0, 2, 0, 0, 0, 0, 0, 0, 0]
      20 PageType.playlistTree 4 1 1
      [{ page_index := 1, page_type := PageType.playlistTree, row_count := 0,
         free_size := 0, used_size := 2, next_page := 0, free_area := [],
         row_groups := [⟨0, []⟩] }] (by decide)).1

/-- Inserting one row into the parent-indexed map appends it to exactly its
parent's bucket. -/
theorem childrenOf_addToTree (m : List (Nat × List PlaylistTreeNode))
    (node : PlaylistTreeNode) (pid : Nat) :
    childrenOf (addToTree m node) pid =
      if pid = node.parent_id then childrenOf m pid ++ [node] else childrenOf m pid := by
  induction m with
  | nil =>
    show childrenOf [(node.parent_id, [node])] pid = _
    unfold childrenOf
    by_cases hp : pid = node.parent_id
    · rw [if_pos hp]
      rw [List.find?_cons_of_pos _ (by simp [hp])]
      rfl
    · rw [if_neg hp]
      rw [List.find?_cons_of_neg _ (by simp; omega)]
  | cons kv rest ih =>
    obtain ⟨key, nodes⟩ := kv
    show childrenOf
      (if key = node.parent_id then (key, nodes ++ [node]) :: rest
       else (key, nodes) :: addToTree rest node) pid = _
    by_cases hk : key = node.parent_id
    · rw [if_pos hk]
      unfold childrenOf
      by_cases hp : key = pid
      · rw [List.find?_cons_of_pos _ (by simp [hp]), List.find?_cons_of_pos _ (by simp [hp])]
        rw [if_pos (by omega)]
      · rw [List.find?_cons_of_neg _ (by simp; omega),
          List.find?_cons_of_neg _ (by simp; omega)]
        rw [if_neg (by omega)]
    · rw [if_neg hk]
      unfold childrenOf
      by_cases hp : key = pid
      · rw [List.find?_cons_of_pos _ (by simp [hp]), List.find?_cons_of_pos _ (by simp [hp])]
        rw [if_neg (by omega)]
      · rw [List.find?_cons_of_neg _ (by simp; omega),
          List.find?_cons_of_neg _ (by simp; omega)]
        exact ih

/-- Folding rows into the map groups them by parent id, preserving row
order. -/
theorem childrenOf_foldl (rows : List PlaylistTreeNode) :
    ∀ (m : List (Nat × List PlaylistTreeNode)) (pid : Nat),
      childrenOf (rows.foldl addToTree m) pid =
        childrenOf m pid ++ rows.filter (fun r => r.parent_id == pid) := by
  induction rows with
  | nil => intro m pid; simp
  | cons r rows ih =>
    intro m pid
    show childrenOf (rows.foldl addToTree (addToTree m r)) pid = _
    rw [ih (addToTree m r) pid, childrenOf_addToTree]
    by_cases hp : pid = r.parent_id
    · rw [if_pos hp, List.filter_cons_of_pos (by simp [hp])]
      simp
    · rw [if_neg hp, List.filter_cons_of_neg (by simp; omega)]

/-- C7: Grouping playlist-tree rows by `parent_id` and printing recursively
from root id 0 reconstructs the parent-linked hierarchy: the children
recorded under any id are exactly the rows whose `parent_id` equals it, in
row order; and for the two rows `(id 1, parent 0, "Root")`,
`(id 2, parent 1, "Child")` the rendered tree below id 0 is one top-level
node `"Root"` with the single child `"Child"`. -/
theorem playlist_tree_reconstruction :
    (∀ (rows : List PlaylistTreeNode) (pid : Nat),
      childrenOf (buildTree rows) pid = rows.filter (fun r => r.parent_id == pid)) ∧
    renderForest
        (buildTree
          [{ id := 1, parent_id := 0, sort_order := 0, raw_is_folder := 1,
             name := .short [82, 111, 111, 116] },
           { id := 2, parent_id := 1, sort_order := 0, raw_is_folder := 0,
             name := .short [67, 104, 105, 108, 100] }]) 3 0 =
      [PTree.node (.short [82, 111, 111, 116]) true
        [PTree.node (.short [67, 104, 105, 108, 100]) false []]] := by
  constructor
  · intro rows pid
    unfold buildTree
    rw [childrenOf_foldl rows [] pid]
    rfl
  · rfl

/-- C3 counterexample: a file whose header decodes (one playlist-tree table
whose chain names page 1) but which contains no page 1.  `read_pages` fails,
and the `.unwrap()` at `src/main.rs:100` panics instead of propagating the
error. -/
theorem list_playlists_panics :
    list_playlists [20, 0, 0, 0, 1, 0, 0, 0, 7, 0, 0, 0, 1, 0, 0, 0, 1, 0, 0, 0] =
      .panicked := by decide

/-- C3 (amended): file-open and header-decode failures are propagated as
results all the way to `main`, which exits non-zero with a diagnostic — a
subcommand returns `Err` exactly when `Header::read` fails; but a failure of
`read_pages` inside `list-playlists` or `reexport-pdb` is `.unwrap()`ed and
aborts with an uncontrolled panic (see the counterexample), so not every
decode error is propagated. -/
theorem cli_error_propagation (F : List Nat) :
    (list_playlists F = .err ↔ readHeader F = none) ∧
    (reexport_pdb F = .err ↔ readHeader F = none) := by
  cases hrh : readHeader F with
  | none =>
    constructor
    · constructor
      · intro _; rfl
      · intro _
        unfold list_playlists
        rw [hrh]
    · constructor
      · intro _; rfl
      · intro _
        unfold reexport_pdb
        rw [hrh]
  | some hdr =>
    have h1 : list_playlists F ≠ .err := by
      unfold list_playlists
      rw [hrh]
      simp only []
      cases hrc : readChains F hdr
          (hdr.tables.filter (fun t => t.page_type == PageType.playlistTree)) with
      | none => simp
      | some pages => simp
    have h2 : reexport_pdb F ≠ .err := by
      unfold reexport_pdb
      rw [hrh]
      simp only []
      cases hrc : readChains F hdr hdr.tables with
      | none => simp
      | some pages => simp
    constructor
    · exact ⟨fun he => absurd he h1, fun hn => nomatch hn⟩
    · exact ⟨fun he => absurd he h2, fun hn => nomatch hn⟩

/-- `headerDecode` reads `page_size` from the first four bytes,
little-endian. -/
theorem headerDecode_pageSize (bs : List Nat) (hdr : Header)
    (h : headerDecode bs = some hdr) : hdr.page_size = leVal (bs.take 4) := by
  unfold headerDecode at h
  cases hpsr : readLE 4 bs with
  | none => rw [hpsr] at h; cases h
  | some psr =>
    rw [hpsr] at h
    simp only [] at h
    cases hntr : readLE 4 psr.2 with
    | none => rw [hntr] at h; cases h
    | some ntr =>
      rw [hntr] at h
      simp only [] at h
      cases htr : readTables ntr.1 ntr.2 with
      | none => rw [htr] at h; cases h
      | some tr =>
        rw [htr] at h
        simp only [] at h
        cases h
        rw [readLE_eq] at hpsr
        by_cases hl : 4 ≤ bs.length
        case neg => rw [if_neg hl] at hpsr; cases hpsr
        rw [if_pos hl] at hpsr
        cases hpsr
        rfl

/-- C2: every multi-byte numeric field is decoded and encoded little-endian,
independently of any host byte order: `readLE` (nom's `le_u16`/`le_u32` and
the binrw little-endian field readers) always returns the little-endian
interpretation of the consumed bytes, `leBytes` inverts it, and the concrete
fields of `Setting::parse` and of the pdb header are those interpretations of
their on-disk bytes. -/
theorem little_endian_fields :
    (∀ (n : Nat) (bs rest : List Nat) (v : Nat), readLE n bs = some (v, rest) →
      v = leVal (bs.take n) ∧ rest = bs.drop n) ∧
    (∀ n v, v < 256 ^ n → leVal (leBytes n v) = v) ∧
    (∀ (input r : List Nat) (s : Setting), Setting.parse input = .ok r s →
      s.len_stringdata = leVal (input.take 4) ∧
      s.unknown2 =
        leVal ((input.drop (10 + 3 * (s.len_stringdata / 3) + s.len_unknown1)).take 2)) ∧
    (∀ (F : List Nat) (hdr : Header), readHeader F = some hdr →
      hdr.page_size = leVal (F.take 4)) := by
  refine ⟨?_, leVal_leBytes, ?_, ?_⟩
  · intro n bs rest v h
    rw [readLE_eq] at h
    by_cases hl : n ≤ bs.length
    case neg => rw [if_neg hl] at h; cases h
    rw [if_pos hl] at h
    cases h
    exact ⟨rfl, rfl⟩
  · intro input r s h
    obtain ⟨c1, c2, c3, _, _, _, _, _, hs⟩ :=
      (Setting.parse_ok_iff input r s _ _ rfl rfl).mp h
    subst hs
    exact ⟨rfl, rfl⟩
  · intro F hdr h
    unfold readHeader at h
    cases hpsr : readLE 4 F with
    | none => rw [hpsr] at h; cases h
    | some psr =>
      rw [hpsr] at h
      simp only [] at h
      by_cases hlt : psr.1 < 18
      case pos => rw [if_pos hlt] at h; cases h
      rw [if_neg hlt] at h
      have hps := headerDecode_pageSize (F.take psr.1) hdr h
      rw [readLE_eq] at hpsr
      by_cases hl : 4 ≤ F.length
      case neg => rw [if_neg hl] at hpsr; cases hpsr
      rw [if_pos hl] at hpsr
      cases hpsr
      rw [hps, List.take_take]
      have : min 4 (leVal (F.take 4)) = 4 := by omega
      rw [this]

/-- Witness for C2 at concrete inputs: a two-byte read, a two-byte encode, a
parsed settings file, and the 40-byte pdb file's header. -/
theorem little_endian_fields_w :
    (261 = leVal (([5, 1, 9] : List Nat).take 2) ∧
      ([9] : List Nat) = ([5, 1, 9] : List Nat).drop 2) ∧
    leVal (leBytes 2 300) = 300 ∧
    ({ len_stringdata := 0, company := [], software := [], version := [],
       len_unknown1 := 0, unknown1 := [], checksum := 7,
       unknown2 := 1 } : Setting).len_stringdata =
      leVal (([0, 0, 0, 0, 0, 0, 0, 0, 7, 0, 1, 0] : List Nat).take 4) ∧
    ({ page_size := 20,
       tables := [{ page_type := PageType.playlistTree, first_page := 1, last_page := 1 }],
       padding := [] } : Header).page_size =
      leVal (([20, 0, 0, 0, 1, 0, 0, 0, 7, 0, 0, 0, 1, 0, 0, 0, 1, 0, 0, 0,
               1, 0, 0, 0, 7, 0, 0, 0, 0, 0, 0, 0, 2, 0, 0, 0, 0, 0, 0, 0] :
        List Nat).take 4) :=
  ⟨little_endian_fields.1 2 [5, 1, 9] [9] 261 (by decide),
   little_endian_fields.2.1 2 300 (by norm_num),
   (little_endian_fields.2.2.1 [0, 0, 0, 0, 0, 0, 0, 0, 7, 0, 1, 0] []
     { len_stringdata := 0, company := [], software := [], version := [],
       len_unknown1 := 0, unknown1 := [], checksum := 7, unknown2 := 1 } (by decide)).1,
   little_endian_fields.2.2.2
     [20, 0, 0, 0, 1, 0, 0, 0, 7, 0, 0, 0, 1, 0, 0, 0, 1, 0, 0, 0,
      1, 0, 0, 0, 7, 0, 0, 0, 0, 0, 0, 0, 2, 0, 0, 0, 0, 0, 0, 0]
     { page_size := 20,
       tables := [{ page_type := PageType.playlistTree, first_page := 1, last_page := 1 }],
       padding := [] } (by decide)⟩
